import Mathlib

/-!
Verification development for the pattern-matching engine of the mwetoolkit
corpus toolkit (`bin/libs/base/patternlib.py` together with the separator
constants of `bin/libs/base/word.py`).

The development shallowly embeds:

* the subset of Python-`re` regular expressions that the pattern compiler
  emits (literals, negated character classes, concatenation, priority
  alternation, greedy repetition, named capturing groups, named
  back-references, look-aheads), with Python's backtracking search order,
  `pos`/`endpos` bounds and latest-wins capture semantics.  The matcher is
  fuel-indexed; fuel exhaustion is reported as a distinct outcome (`out`)
  and never conflated with a definite non-match;
* the pattern AST (`WordPattern` / `SequencePattern` / `EitherPattern`)
  and the structural compiler (`PatternMatcher.__init__` / `_do_parse` /
  `_parse_w` / `_parse_seq` / `_parse_either` / `_post_parsing`),
  including the duplicate-identifier error, the fore-reference table,
  ignore-scope bookkeeping and the warning channel;
* the sentence encoder and the match executor (`PatternMatcher.matches` /
  `_matches_at` / `strids2numids`).

Modelling notes.  `RegexProp` (raw user regexes spliced verbatim into the
compiled pattern) and free-form repeat strings are outside the modelled
fragment: embedding them would require a parser for Python regex source
text.  All claims below are settled over patterns built from literal,
starred-wildcard and back-reference word properties and well-formed repeat
quantifiers, which is the fragment the claims exercise.  Python dicts are
modelled as association lists (latest binding first), `str(n)` as `natStr`,
and the diagnostics channel (`ctxinfo.warn`) as an accumulated list of
warning strings.
-/

/-- ASCII 0o35 = 29, `ATTRIBUTE_SEPARATOR` of `word.py`. -/
def ASEP : Char := Char.ofNat 29

/-- ASCII 0o34 = 28, `WORD_SEPARATOR` of `word.py`. -/
def WSEP : Char := Char.ofNat 28

/-- Decimal digit characters of `str(n)`, auxiliary (fuel-indexed). -/
def natStrAux : Nat → Nat → List Char
  | 0, _ => []
  | fuel + 1, n =>
    if n = 0 then [] else natStrAux fuel (n / 10) ++ [Char.ofNat (48 + n % 10)]

/-- Model of Python `str` on a natural number. -/
def natStr (n : Nat) : List Char :=
  if n = 0 then ['0'] else natStrAux (n + 1) n

/-- `str(n)` as a `String` (used to synthesize fresh group names). -/
def natStrS (n : Nat) : String := ⟨natStr n⟩

/-! ## The regex fragment emitted by the pattern compiler -/

/-- The abstract syntax of the Python-`re` fragment that
`PatternMatcher` emits: literal runs (`re.escape`d text), single-character
(possibly negated) classes, concatenation, priority alternation `|`,
greedy `*`, greedy bounded repetition `{lo,hi}` (also encoding `+` and
`?`), named groups `(?P<name>...)`, named back-references `(?P=name)` and
look-aheads `(?=...)` / `(?!...)`. -/
inductive Regex where
  | eps
  | lit (l : List Char)
  | cls (neg : Bool) (cs : List Char)
  | cat (a b : Regex)
  | alt (a b : Regex)
  | star (r : Regex)
  | rep (r : Regex) (lo : Nat) (hi : Option Nat)
  | grp (name : String) (r : Regex)
  | bref (name : String)
  | look (neg : Bool) (r : Regex)
deriving DecidableEq

/-- Capture table: latest capture first, as Python's last-wins groups. -/
abbrev Caps := List (String × (Nat × Nat))

/-- Search result of the fuel-indexed backtracking matcher.  `out` is
fuel exhaustion and is kept distinct from the definite failure `nope`. -/
inductive SRes (α : Type) where
  | out
  | nope
  | yes (a : α)
deriving DecidableEq

/-- Priority choice: a definite failure falls through to the second
branch; fuel exhaustion is sticky. -/
def SRes.orElse {α : Type} : SRes α → (Unit → SRes α) → SRes α
  | .yes a, _ => .yes a
  | .nope, f => f ()
  | .out, _ => .out

/-- Does the literal `l` occur at `pos` (staying below `endpos`)? -/
def litAt (s : List Char) : Nat → Nat → List Char → Bool
  | _, _, [] => true
  | pos, endpos, c :: tl =>
    if pos < endpos then
      match s.get? pos with
      | some c' => c' == c && litAt s (pos + 1) endpos tl
      | none => false
    else false

/-- `s[a:b]` on the character list. -/
def sliceL (s : List Char) (a b : Nat) : List Char := (s.drop a).take (b - a)

/-- Single-character class test (`neg = true` is `[^...]`). -/
def clsOk (neg : Bool) (cs : List Char) (c : Char) : Bool :=
  if neg then !(cs.contains c) else cs.contains c

/-- Backtracking matcher in continuation style, mirroring Python `re`'s
search order: alternation is priority-ordered, repetition is greedy, an
empty repetition body stops the loop (sre's empty-match protection),
captures are recorded latest-first and undone on backtracking, and a
back-reference re-matches the captured text.  The matcher is anchored at
`pos` and bounded by `endpos`, like `compiled.match(s, pos, endpos)`. -/
def reM {α : Type} (s : List Char) (endpos : Nat) :
    Nat → Regex → Nat → Caps → (Nat → Caps → SRes α) → SRes α
  | 0, _, _, _, _ => .out
  | fuel + 1, re, pos, caps, k =>
    match re with
    | .eps => k pos caps
    | .lit l => if litAt s pos endpos l then k (pos + l.length) caps else .nope
    | .cls neg cs =>
      if pos < endpos then
        match s.get? pos with
        | some c => if clsOk neg cs c then k (pos + 1) caps else .nope
        | none => .nope
      else .nope
    | .cat a b =>
      reM s endpos fuel a pos caps (fun p' c' => reM s endpos fuel b p' c' k)
    | .alt a b =>
      (reM s endpos fuel a pos caps k).orElse
        (fun _ => reM s endpos fuel b pos caps k)
    | .star r =>
      (reM s endpos fuel r pos caps (fun p' c' =>
          if pos < p' then reM s endpos fuel (.star r) p' c' k
          else k p' c')).orElse
        (fun _ => k pos caps)
    | .rep r lo hi =>
      match lo, hi with
      | l + 1, _ =>
        reM s endpos fuel r pos caps (fun p' c' =>
          reM s endpos fuel (.rep r l (hi.map (· - 1))) p' c' k)
      | 0, none => reM s endpos fuel (.star r) pos caps k
      | 0, some 0 => k pos caps
      | 0, some (h + 1) =>
        (reM s endpos fuel r pos caps (fun p' c' =>
            if pos < p' then reM s endpos fuel (.rep r 0 (some h)) p' c' k
            else k p' c')).orElse
          (fun _ => k pos caps)
    | .grp n r =>
      reM s endpos fuel r pos caps (fun p' c' => k p' ((n, (pos, p')) :: c'))
    | .bref n =>
      match caps.lookup n with
      | some (a, b) =>
        if litAt s pos endpos (sliceL s a b) then k (pos + (b - a)) caps
        else .nope
      | none => .nope
    | .look neg r =>
      match reM (α := Nat × Caps) s endpos fuel r pos caps
          (fun p' c' => .yes (p', c')) with
      | .yes (_, c') => if neg then .nope else k pos c'
      | .nope => if neg then k pos caps else .nope
      | .out => .out

/-- The data of a successful `re.match`: overall span plus captures. -/
structure MatchData where
  mstart : Nat
  mend : Nat
  caps : Caps
deriving DecidableEq

/-- Model of `compiled.match(s, pos, endpos)` returning the first match
found in Python's backtracking order (or a definite non-match / fuel
exhaustion). -/
def reMatchTop (fuel : Nat) (re : Regex) (s : List Char) (pos endpos : Nat) :
    SRes MatchData :=
  match reM (α := Nat × Caps) s endpos fuel re pos []
      (fun p c => .yes (p, c)) with
  | .yes (p, c) => .yes ⟨pos, p, c⟩
  | .nope => .nope
  | .out => .out

/-- `match_result.span(g)`: the whole-match span for the virtual id
`id_*` (numeric group 0), the latest capture for a named group, `none`
for a group that did not participate (Python's `(-1, -1)`). -/
def capSpan (md : MatchData) (nm : String) : Option (Nat × Nat) :=
  if nm = "id_*" then some (md.mstart, md.mend) else md.caps.lookup nm

/-! ## Word properties and the pattern AST -/

/-- Word-level properties (`WordProp` subclasses).  `RegexProp` is
outside the modelled fragment (its compiled form is raw regex source
text); `LiteralProp`, `StarredWildcardProp` and `BackrefProp` are
embedded. -/
inductive WordProp where
  | litp (value : String)
  | starred (value : String)
  | backref (w_strid : String) (prop : String)
deriving DecidableEq

/-- `ATTRIBUTE_WILDCARD = "[^" + ATTRIBUTE_SEPARATOR + WORD_SEPARATOR + "]*"`. -/
def rWild : Regex := .star (.cls true [ASEP, WSEP])

/-- `StarredWildcardProp.to_base_regex`: `re.escape(value)` with each
escaped `*` replaced by the attribute wildcard. -/
def starredRegex : List Char → Regex
  | [] => .eps
  | c :: tl =>
    if c = '*' then .cat rWild (starredRegex tl)
    else .cat (.lit [c]) (starredRegex tl)

/-- `WordProp.to_base_regex` on the modelled property variants. -/
def WordProp.to_base_regex : WordProp → Regex
  | .litp v => .lit v.data
  | .starred v => starredRegex v.data
  | .backref w p => .bref ("wid_" ++ w ++ "_" ++ p)

/-- `to_positive_lookahead_regex`: `(?=base)`. -/
def WordProp.to_positive_lookahead_regex (p : WordProp) : Regex :=
  .look false p.to_base_regex

/-- `to_negative_lookahead_regex`: `(?!base)`. -/
def WordProp.to_negative_lookahead_regex (p : WordProp) : Regex :=
  .look true p.to_base_regex

/-- The `.value` attribute read by the syndep handler of `_parse_w`.
A `BackrefProp` has no `value` attribute (Python would raise
`AttributeError`), hence `none`. -/
def WordProp.propValue : WordProp → Option String
  | .litp v => some v
  | .starred v => some v
  | .backref _ _ => none

/-- Repeat quantifiers recognized by `_parse_seq` (`*`, `+`, `?`,
`{lo,hi}` / `{lo,}` / `{lo}`).  Unrecognized repeat strings (emitted
verbatim by the source with a warning, with engine-defined behavior) are
outside the modelled fragment. -/
inductive RepCmd where
  | star
  | plus
  | opt
  | rng (lo : Nat) (hi : Option Nat)
deriving DecidableEq

/-- The pattern AST: `WordPattern` (optional id, positive and negative
property tables keyed by attribute name), `SequencePattern` (optional
id, optional repeat, ignore flag, children) and `EitherPattern`
(alternation branches). -/
inductive Pattern where
  | word (w_strid : Option String)
      (positive_props negative_props : List (String × List WordProp))
  | seq (seq_strid : Option String) (rep : Option RepCmd) (ignore : Bool)
      (subs : List Pattern)
  | either (subs : List Pattern)

/-- Python truthiness of an optional id string: declared iff present and
non-empty (`if w_patobj.w_strid:` / `if seq_strid:`). -/
def declTruthy : Option String → Option String
  | none => none
  | some s => if s = "" then none else some s

/-- The (zero or one) declared id of an optional id string. -/
def declOf (o : Option String) : List String :=
  match declTruthy o with
  | some s => [s]
  | none => []

mutual

/-- All symbolic ids declared in a pattern, in pre-order traversal
order (a sequence id is declared before its children's ids). -/
def declaredIds : Pattern → List String
  | .word s _ _ => declOf s
  | .seq s _ _ subs => declOf s ++ declaredIdsList subs
  | .either subs => declaredIdsList subs

/-- `declaredIds` over a child list. -/
def declaredIdsList : List Pattern → List String
  | [] => []
  | p :: tl => declaredIds p ++ declaredIdsList tl

end

/-! ## The structural compiler (`PatternMatcher._do_parse` etc.) -/

/-- Mutable compiler state threaded through `_do_parse`:
`temp_id`, `defined_w_ids`, `forepattern_ids`, `strid2parent`, the
ignored-group names (`ignored2strid` values, in insertion order) and the
warning channel. -/
structure PState where
  temp_id : Nat
  defined_w_ids : List String
  forepattern_ids : List (String × String)
  strid2parent : List (String × String)
  ignoredStrids : List String
  warnings : List String
deriving DecidableEq

/-- Initial compiler state. -/
def PState.init : PState := ⟨0, [], [], [], [], []⟩

/-- Right-nested concatenation of emitted fragments. -/
def rcats : List Regex → Regex
  | [] => .eps
  | r :: tl => .cat r (rcats tl)

/-- `_check_scope_repeat`: warn when an id/ignore is declared under an
active repeat scope.  (In the source the scope flag is initialized to
`None` and the update at line 401 only fires when it is already
non-`None`, so the flag never becomes set; the parameter is threaded
faithfully all the same.) -/
def checkScopeRepeat (st : PState) (scope_repeat : Bool) : PState :=
  if scope_repeat then
    { st with warnings := st.warnings ++
        ["Elem cannot have `id` or `ignore` under a `repeat` scope"] }
  else st

/-- Conjunction of the positive properties of one attribute: the first
property contributes its base regex, every further one a positive
look-ahead placed before it (`_parse_w`, lines 443-447). -/
def positiveVal : List WordProp → Regex
  | [] => rWild
  | p :: rest =>
    rcats ((rest.map WordProp.to_positive_lookahead_regex) ++ [p.to_base_regex])

/-- Per-attribute fragment: negative look-aheads, then the positive
conjunction, defaulting to the wildcard (`_parse_w`, lines 438-451). -/
def attrVal (posl : Option (List WordProp)) (negl : List WordProp) : Regex :=
  let v := match posl with
    | none => rWild
    | some l => positiveVal l
  rcats ((negl.map WordProp.to_negative_lookahead_regex) ++ [v])

/-- Split `value` at `:` into exactly two parts, the Python
`(deptype, depref) = propval.value.split(":")` unpacking; any other
number of parts raises. -/
def splitColon (l : List Char) : Option (List Char × List Char) :=
  match l.splitOn ':' with
  | [a, b] => some (a, b)
  | _ => none

/-- `WORD_FORMAT.format(**attrs) + WORD_SEPARATOR`: the five per-word
fields in fixed order, joined by the attribute separator. -/
def wordFormat (wordnum surface lemm pos syn : Regex) : Regex :=
  .cat wordnum (.cat (.lit [ASEP]) (.cat surface (.cat (.lit [ASEP])
    (.cat lemm (.cat (.lit [ASEP]) (.cat pos (.cat (.lit [ASEP])
      (.cat syn (.lit [WSEP])))))))))

/-- The syndep block of `_parse_w` (lines 465-483): only the first
declared syntactic-relation property is read; it is compiled as a
back-reference when the target id is already declared, and as a
fore-reference placeholder group otherwise; either way the `syn`
attribute fragment is overwritten.  A property without a `value`
attribute or a value not of the shape `rel:target` raises. -/
def parseWsyndep (st2 : PState) (synR : Regex)
    (positive_props : List (String × List WordProp)) :
    Except String (PState × Regex) :=
  match positive_props.lookup "syndep" with
  | some (propval :: _) =>
    match propval.propValue with
    | none => .error "AttributeError: no attribute value"
    | some v =>
      match splitColon v.data with
      | none => .error "ValueError: bad syndep value"
      | some (deptype, depref) =>
        let deprefS : String := ⟨depref⟩
        if deprefS ∈ st2.defined_w_ids then
          -- Backreference.
          .ok (st2, Regex.cat rWild (Regex.cat
            (.lit (';' :: deptype ++ [':']))
            (Regex.cat (.bref ("wid_" ++ deprefS ++ "_wordnum"))
              (Regex.cat (.lit [';']) rWild))))
        else
          -- Fore-reference.
          let foredep := "foredep_" ++ natStrS st2.temp_id
          .ok ({ st2 with
              temp_id := st2.temp_id + 1
              forepattern_ids := (deprefS, foredep) :: st2.forepattern_ids },
            Regex.cat rWild (Regex.cat (.lit (';' :: deptype ++ [':']))
              (Regex.cat (Regex.grp ("foreid_" ++ foredep)
                  (.star (.cls false "0123456789".data)))
                (Regex.cat (.lit [';']) rWild))))
  | some [] => .error "IndexError: empty syndep property list"
  | none => .ok (st2, synR)

/-- `PatternMatcher._parse_w`.  Returns the emitted fragment and the
updated state, or the fatal duplicate-identifier (and other
exception) errors. -/
def parseW (st0 : PState) (w_strid : Option String)
    (positive_props negative_props : List (String × List WordProp))
    (_parent_strid : String) (scope_repeat : Bool) :
    Except String (Regex × PState) :=
  let surfaceR := attrVal (positive_props.lookup "surface")
      ((negative_props.lookup "surface").getD [])
  let lemmaR := attrVal (positive_props.lookup "lemma")
      ((negative_props.lookup "lemma").getD [])
  let posR := attrVal (positive_props.lookup "pos")
      ((negative_props.lookup "pos").getD [])
  let synR := attrVal (positive_props.lookup "syn")
      ((negative_props.lookup "syn").getD [])
  let wordnumR := rWild
  -- the `if w_patobj.w_strid:` block (declared id)
  let (st1, wordnumR, surfaceR, lemmaR, posR, synR, declared) :=
    match declTruthy w_strid with
    | some s =>
      let st := checkScopeRepeat st0 scope_repeat
      let wn := match st.forepattern_ids.lookup s with
        | some fore => Regex.bref ("foreid_" ++ fore)
        | none => wordnumR
      ((st, Regex.grp ("wid_" ++ s ++ "_wordnum") wn,
        Regex.grp ("wid_" ++ s ++ "_surface") surfaceR,
        Regex.grp ("wid_" ++ s ++ "_lemma") lemmaR,
        Regex.grp ("wid_" ++ s ++ "_pos") posR,
        Regex.grp ("wid_" ++ s ++ "_syn") synR, some s))
    | none => (st0, wordnumR, surfaceR, lemmaR, posR, synR, none)
  let st2e : Except String PState :=
    match declared with
    | some s =>
      if s ∈ st1.defined_w_ids then
        .error ("Id " ++ s ++ " defined twice")
      else
        .ok { st1 with defined_w_ids := st1.defined_w_ids ++ [s] }
    | none => .ok st1
  match st2e with
  | .error e => .error e
  | .ok st2 =>
    -- the `if "syndep" in w_patobj.positive_props:` block
    match parseWsyndep st2 synR positive_props with
    | .error e => .error e
    | .ok (st3, synR2) =>
      let w_pat := wordFormat wordnumR surfaceR lemmaR posR synR2
      let w_pat := match declared with
        | some s => Regex.grp ("id_" ++ s) w_pat
        | none => w_pat
      .ok (w_pat, st3)

/-- Apply a repeat quantifier to the non-capturing inner group
(`(?:inner)repeat` in `_parse_seq`). -/
def applyRep (q : RepCmd) (r : Regex) : Regex :=
  match q with
  | .star => .star r
  | .plus => .rep r 1 none
  | .opt => .rep r 0 (some 1)
  | .rng lo hi => .rep r lo hi

/-- Priority alternation of a branch list (`(?:b1|b2|...)`); with no
branches the emitted `(?:)` matches the empty string. -/
def ralts : List Regex → Regex
  | [] => .eps
  | [r] => r
  | r :: tl => .alt r (ralts tl)

mutual

/-- `PatternMatcher._do_parse`: dispatch on the node variant.  The
`.seq` case is `_parse_seq` (open the ignore-tracking group, then the
id-tracking group, then the non-capturing repeat group around the
children's fragments, registering parents as it goes; the scope-repeat
flag is threaded unchanged because the source's update at line 401 only
reassigns it when it is already set); the `.either` case is
`_parse_either` (alternation of the branches in declaration order, the
first branch having matching priority). -/
def parseP : Pattern → PState → String → Bool →
    Except String (Regex × PState)
  | .word s pp np, st, parent, scope => parseW st s pp np parent scope
  | .seq seq_strid rep ign subs, st0, parent0, scope_repeat =>
    let (st1, parent1, ignName) :=
      if ign then
        let st := checkScopeRepeat st0 scope_repeat
        let nm := "ignore_" ++ natStrS st.ignoredStrids.length
        ({ st with
            ignoredStrids := st.ignoredStrids ++ [nm]
            strid2parent := (nm, parent0) :: st.strid2parent },
          nm, some nm)
      else (st0, parent0, none)
    let ide : Except String (PState × String × Option String) :=
      match declTruthy seq_strid with
      | some s =>
        let st := checkScopeRepeat st1 scope_repeat
        if '_' ∈ s.data then
          .error ("AssertionError: underscore in seq id " ++ s)
        else
          let nm := "id_" ++ s
          .ok ({ st with strid2parent := (nm, parent1) :: st.strid2parent },
            nm, some nm)
      | none => .ok (st1, parent1, none)
    match ide with
    | .error e => .error e
    | .ok (st2, parent2, idName) =>
      match parseList subs st2 parent2 scope_repeat with
      | .error e => .error e
      | .ok (frs, st3) =>
        let inner := rcats frs
        let inner := match rep with
          | some q => applyRep q inner
          | none => inner
        let inner := match idName with
          | some nm => Regex.grp nm inner
          | none => inner
        let inner := match ignName with
          | some nm => Regex.grp nm inner
          | none => inner
        .ok (inner, st3)
  | .either subs, st0, parent, scope_repeat =>
    match parseList subs st0 parent scope_repeat with
    | .error e => .error e
    | .ok (frs, st1) => .ok (ralts frs, st1)

/-- Parse a child list left to right, threading the state. -/
def parseList : List Pattern → PState → String → Bool →
    Except String (List Regex × PState)
  | [], st, _, _ => Except.ok ([], st)
  | p :: tl, st, parent, scope =>
    match parseP p st parent scope with
    | .error e => .error e
    | .ok (r, st') =>
      match parseList tl st' parent scope with
      | .error e => .error e
      | .ok (rs, st'') => .ok (r :: rs, st'')

end

/-! ## `re.compile` model and `_post_parsing` -/

/-- Capturing-group names of a regex in opening-parenthesis order
(Python's `groupindex` key set; all groups emitted by the compiler are
named). -/
def collectGroups : Regex → List String
  | .eps | .lit _ | .cls _ _ | .bref _ => []
  | .cat a b => collectGroups a ++ collectGroups b
  | .alt a b => collectGroups a ++ collectGroups b
  | .star r => collectGroups r
  | .rep r _ _ => collectGroups r
  | .grp n r => n :: collectGroups r
  | .look _ r => collectGroups r

/-- A valid Python group name (an identifier over the ASCII fragment
the compiler emits). -/
def validGroupName (n : String) : Bool :=
  match n.data with
  | [] => false
  | c :: tl =>
    (c.isAlpha || c = '_') && tl.all (fun d => d.isAlphanum || d = '_')

/-- `re.compile`'s static checks on the emitted pattern: a group name
may not be redefined (`opened` accumulates every group opened so far),
must be a valid identifier, and a named back-reference must refer to an
already-closed group (`closed`); Python rejects unknown and still-open
referents alike. -/
def checkRefs : Regex → List String → List String →
    Except String (List String × List String)
  | .eps, op, cl | .lit _, op, cl | .cls _ _, op, cl => Except.ok (op, cl)
  | .cat a b, op, cl =>
    match checkRefs a op cl with
    | .error e => .error e
    | .ok (op', cl') => checkRefs b op' cl'
  | .alt a b, op, cl =>
    match checkRefs a op cl with
    | .error e => .error e
    | .ok (op', cl') => checkRefs b op' cl'
  | .star r, op, cl => checkRefs r op cl
  | .rep r _ _, op, cl => checkRefs r op cl
  | .look _ r, op, cl => checkRefs r op cl
  | .grp n r, op, cl =>
    if n ∈ op then Except.error ("redefinition of group name " ++ n)
    else if !(validGroupName n) then
      Except.error ("bad character in group name " ++ n)
    else
      match checkRefs r (op ++ [n]) cl with
      | .error e => .error e
      | .ok (op', cl') => Except.ok (op', cl' ++ [n])
  | .bref n, op, cl =>
    if n ∈ cl then Except.ok (op, cl)
    else Except.error ("unknown or open group name " ++ n)

/-- Fuel for the `_post_parsing` empty-string check
(`compiled_pattern.match(WORD_SEPARATOR)` runs on a 1-character
string). -/
def emptyCheckFuel : Nat := 2000

/-- The compiled matcher (`PatternMatcher` after `_post_parsing`):
compiled pattern, group-name table (`strid2numid` minus the virtual
`id_*`), parent table, ignored-group names and the collected
diagnostics. -/
structure Matcher where
  regex : Regex
  groupNames : List String
  strid2parent : List (String × String)
  ignoredStrids : List String
  warnings : List String
deriving DecidableEq

instance : Inhabited Matcher := ⟨⟨.eps, [], [], [], []⟩⟩

/-- `PatternMatcher.__init__` + `_post_parsing`: parse the frozen
pattern into one fragment appended after the leading word separator,
compile it (static checks) and run the matches-empty-string warning
check. -/
def compileP (p : Pattern) : Except String Matcher :=
  match parseP p PState.init "id_*" false with
  | .error e => .error e
  | .ok (fr, st) =>
    let regex := Regex.cat (.lit [WSEP]) fr
    match checkRefs regex [] [] with
    | .error e => .error e
    | .ok _ =>
      let emptyWarn :=
        match reMatchTop emptyCheckFuel regex [WSEP] 0 1 with
        | .yes _ => ["Pattern matches empty string"]
        | _ => []
      .ok { regex := regex
            groupNames := collectGroups regex
            strid2parent := st.strid2parent
            ignoredStrids := st.ignoredStrids
            warnings := st.warnings ++ emptyWarn }

/-- Ancestor chain of a group name through `strid2parent`, stopping at
the virtual root `id_*` (numeric id 0); fuel-indexed, with fuel at least
the table size the chain built by the compiler is fully explored. -/
def ancestors (parents : List (String × String)) : Nat → String → List String
  | 0, _ => []
  | fuel + 1, a =>
    a :: (if a = "id_*" then []
      else match parents.lookup a with
        | some par => ancestors parents fuel par
        | none => [])

/-- `ignored_sub_numids[numid]`: the ignored groups having `nm` on
their ancestor chain (`_fill_ignored_sub_numids` walks each ignored
group's chain and files it under every ancestor including itself and the
root). -/
def Matcher.ignoredSubOf (m : Matcher) (nm : String) : List String :=
  m.ignoredStrids.filter
    (fun ig => nm ∈ ancestors m.strid2parent (m.strid2parent.length + 1) ig)

/-! ## Sentence encoding (`PatternMatcher.matches`, lines 497-513) -/

/-- A token record: the four `WORD_ATTRIBUTES` as strings. -/
structure PWord where
  surface : String
  lemma_ : String
  pos : String
  syn : String
deriving DecidableEq, Inhabited

/-- One encoded token (`WORD_FORMAT.format(**attrs)` with `wordnum` the
1-based token position and the `syn` field wrapped as `;syn;`). -/
def encodeElem (wordnum : Nat) (w : PWord) : List Char :=
  natStr wordnum ++ [ASEP] ++ w.surface.data ++ [ASEP] ++ w.lemma_.data
    ++ [ASEP] ++ w.pos.data ++ [ASEP] ++ (';' :: (w.syn.data ++ [';']))

/-- Character offsets at which each token's encoding begins
(`positions`; the first token starts after the leading separator). -/
def encodePositions (ws : List PWord) : List Nat :=
  go 1 1 ws
where
  go (off wordnum : Nat) : List PWord → List Nat
    | [] => []
    | w :: tl => off :: go (off + (encodeElem wordnum w).length + 1) (wordnum + 1) tl

/-- `wordstring`: the word separator, the separator-joined encoded
tokens, and a closing word separator. -/
def encodeString (ws : List PWord) : List Char :=
  WSEP :: go 1 ws
where
  go (wordnum : Nat) : List PWord → List Char
    | [] => [WSEP]
    | [w] => encodeElem wordnum w ++ [WSEP]
    | w :: tl => encodeElem wordnum w ++ WSEP :: go (wordnum + 1) tl

/-! ## Index extraction (`PatternMatcher._matches_at`, lines 565-582) -/

/-- `enumerate(positions)` starting at index `i`. -/
def enumP : Nat → List Nat → List (Nat × Nat)
  | _, [] => []
  | i, p :: tl => (i, p) :: enumP (i + 1) tl

/-- `bisect.bisect_left(positions, x)` on the sorted-by-construction
offset table: the first index whose offset is not below `x`. -/
def bisectLeft : List Nat → Nat → Nat
  | [], _ => 0
  | p :: tl, x => if p < x then bisectLeft tl x + 1 else 0

/-- Is `pos` inside one of the ignored spans? -/
def inRanges (pos : Nat) (rs : List (Nat × Nat)) : Bool :=
  rs.any (fun r => r.1 ≤ pos && pos < r.2)

/-- The `for pos in itertools.islice(positions, i, None)` loop: walk the
remaining `(index, offset)` pairs, stop at the first offset at or past
the slot's end, and keep the pairs whose offset is in no ignored span. -/
def sliceScan (pend : Nat) (ign : List (Nat × Nat)) :
    List (Nat × Nat) → List (Nat × Nat)
  | [] => []
  | (k, pos) :: tl =>
    if pend ≤ pos then []
    else if inRanges pos ign then sliceScan pend ign tl
    else (k, pos) :: sliceScan pend ign tl

/-- Token `(index, offset)` pairs extracted for one requested id:
resolve the id's span, binary-search the first token at or after its
start, and filter out tokens inside any ignored descendant span. -/
def extractFor (positions : List Nat) (md : MatchData)
    (ignSub : List String) (numid : String) : List (Nat × Nat) :=
  let ignoredRanges := ignSub.filterMap (capSpan md)
  match capSpan md numid with
  | none => []
  | some (pbeg, pend) =>
    sliceScan pend ignoredRanges ((enumP 0 positions).drop (bisectLeft positions pbeg))

/-- One `(ngram, match_indexes)` pair as yielded by `_matches_at`. -/
structure MRes where
  ngram : List PWord
  idx : List Nat
deriving DecidableEq, Inhabited

/-- Build the yielded pair for one regex match: concatenate the
extractions of the requested ids in caller order; the sub-n-gram is the
corresponding token copies. -/
def extractMatch (words : List PWord) (positions : List Nat)
    (md : MatchData) (numidOrder : List String)
    (ignSubOf : String → List String) : MRes :=
  let wordnums :=
    (numidOrder.flatMap (fun numid =>
      extractFor positions md (ignSubOf numid) numid)).map (·.1)
  { ngram := wordnums.map (fun k => words.getD k default), idx := wordnums }

/-- The `while True` retry loop of `_matches_at`: run the anchored
match, yield its extraction, then retry with the end bound shrunk to
just below the previous match end, until no further match starts here;
`anchor_end` stops after the first yield.  Fuel-indexed (the bound
strictly decreases in the source, so the caller's fuel suffices);
`none` reports engine-fuel exhaustion. -/
def matchesAtLoop (engineFuel : Nat) (regex : Regex) (ws : List Char)
    (words : List PWord) (positions : List Nat) (numidOrder : List String)
    (ignSubOf : String → List String) (anchorEnd : Bool)
    (currentStart : Nat) : Nat → Nat → Option (List MRes)
  | 0, _ => none
  | fuel + 1, currentEnd =>
    match reMatchTop engineFuel regex ws (currentStart - 1) currentEnd with
    | .out => none
    | .nope => some []
    | .yes md =>
      let mr := extractMatch words positions md numidOrder ignSubOf
      if anchorEnd then some [mr]
      else
        match matchesAtLoop engineFuel regex ws words positions numidOrder
            ignSubOf anchorEnd currentStart fuel (md.mend - 1) with
        | none => none
        | some rest => some (mr :: rest)

/-- `PatternMatcher._matches_at`: all matches anchored at
`currentStart`, longest first. -/
def matchesAt (engineFuel : Nat) (regex : Regex) (ws : List Char)
    (words : List PWord) (positions : List Nat) (numidOrder : List String)
    (ignSubOf : String → List String) (anchorEnd : Bool)
    (currentStart limit : Nat) : Option (List MRes) :=
  matchesAtLoop engineFuel regex ws words positions numidOrder ignSubOf
    anchorEnd currentStart (limit + 2) limit

/-! ## The scan loop (`PatternMatcher.matches`, lines 515-541) -/

/-- How a pull-to-exhaustion of the `matches` generator ends: normal
exhaustion, a raised exception, or fuel running out (the model's marker
for a scan that has not finished within the given number of loop
iterations). -/
inductive ScanOut where
  | done
  | fuelOut
  | err (msg : String)
deriving DecidableEq

/-- Everything the generator yielded, plus how it ended. -/
structure ScanRes where
  yields : List MRes
  out : ScanOut
deriving DecidableEq

/-- Prepend this iteration's yields to the rest of the scan. -/
def prependYields (ys : List MRes) (r : ScanRes) : ScanRes :=
  ⟨ys ++ r.yields, r.out⟩

/-- `strids2numids`: keep the requested ids defined by the compiled
pattern (the virtual `id_*` plus the named `id_...` groups), as group
names; unknown ids are skipped (with a once-per-id warning on the
diagnostics channel, not modelled in the return value). -/
def strids2numids (m : Matcher) (idOrder : List String) : List String :=
  idOrder.filterMap (fun sid =>
    let nm := "id_" ++ sid
    if nm = "id_*" || nm ∈ m.groupNames then some nm else none)

/-- The `matches_here` computation of one scan iteration at cursor `i`. -/
def matchesHereAt (m : Matcher) (words : List PWord) (numidOrder : List String)
    (anchorEnd : Bool) (engineFuel i : Nat) : Option (List MRes) :=
  let positions := encodePositions words
  let ws := encodeString words
  matchesAt engineFuel m.regex ws words positions numidOrder m.ignoredSubOf
    anchorEnd (positions.getD i 0) ws.length

/-- The scan loop of `matches`: while the cursor is inside the offset
table, compute `matches_here`, dispatch on the selection policy (`All`
requires overlapping and yields everything; `Longest` yields the head
and, when non-overlapping, advances by the yielded ngram's length;
`Shortest` likewise with the last element), raise on any other policy
string, advance the cursor, and stop after the first iteration under
`anchor_begin`. -/
def scanRun (m : Matcher) (words : List PWord) (policy : String)
    (overlapping : Bool) (numidOrder : List String)
    (anchorBegin anchorEnd : Bool) (engineFuel : Nat) :
    Nat → Nat → ScanRes
  | 0, _ => ⟨[], .fuelOut⟩
  | fuel + 1, i =>
    if i < (encodePositions words).length then
      match matchesHereAt m words numidOrder anchorEnd engineFuel i with
      | none => ⟨[], .fuelOut⟩
      | some mh =>
        if policy = "All" then
          if !overlapping then ⟨[], .err "All requires Overlapping"⟩
          else if anchorBegin then ⟨mh, .done⟩
          else prependYields mh (scanRun m words policy overlapping numidOrder
            anchorBegin anchorEnd engineFuel fuel (i + 1))
        else if policy = "Longest" then
          match mh with
          | [] =>
            if anchorBegin then ⟨[], .done⟩
            else scanRun m words policy overlapping numidOrder anchorBegin
              anchorEnd engineFuel fuel (i + 1)
          | m0 :: _ =>
            let inc := if !overlapping then m0.ngram.length else 1
            if anchorBegin then ⟨[m0], .done⟩
            else prependYields [m0] (scanRun m words policy overlapping
              numidOrder anchorBegin anchorEnd engineFuel fuel (i + inc))
        else if policy = "Shortest" then
          match mh.getLast? with
          | none =>
            if anchorBegin then ⟨[], .done⟩
            else scanRun m words policy overlapping numidOrder anchorBegin
              anchorEnd engineFuel fuel (i + 1)
          | some mL =>
            let inc := if !overlapping then mL.ngram.length else 1
            if anchorBegin then ⟨[mL], .done⟩
            else prependYields [mL] (scanRun m words policy overlapping
              numidOrder anchorBegin anchorEnd engineFuel fuel (i + inc))
        else ⟨[], .err ("Bad match_distance: " ++ policy)⟩
    else ⟨[], .done⟩

/-- `PatternMatcher.matches(words, match_distance, overlapping,
id_order, anchor_begin, anchor_end)`, pulled to exhaustion: resolve the
requested ids, encode the sentence and scan.  The two fuels bound the
regex engine's backtracking and the number of scan iterations; running
out of either is reported as `ScanOut.fuelOut`, never as a normal
result. -/
def pmMatches (m : Matcher) (words : List PWord) (policy : String)
    (overlapping : Bool) (idOrder : List String)
    (anchorBegin anchorEnd : Bool) (engineFuel scanFuel : Nat) : ScanRes :=
  scanRun m words policy overlapping (strids2numids m idOrder)
    anchorBegin anchorEnd engineFuel scanFuel 0

/-! ## General lemmas about the embedding -/

theorem encodePositions_go_length (off wn : Nat) (l : List PWord) :
    (encodePositions.go off wn l).length = l.length := by
  induction l generalizing off wn with
  | nil => rfl
  | cons w tl ih => simp [encodePositions.go, ih]

/-- The offset table has one entry per token. -/
theorem encodePositions_length (ws : List PWord) :
    (encodePositions ws).length = ws.length :=
  encodePositions_go_length 1 1 ws

theorem mem_enumP_lt {kp : Nat × Nat} :
    ∀ {i : Nat} {l : List Nat}, kp ∈ enumP i l → kp.1 < i + l.length := by
  intro i l
  induction l generalizing i with
  | nil => intro h; simp [enumP] at h
  | cons p tl ih =>
    intro h
    rcases (by simpa [enumP] using h : kp = (i, p) ∨ kp ∈ enumP (i + 1) tl) with
      h | h
    · subst h; simp
    · have := ih h; simp; omega

theorem mem_enumP_le {kp : Nat × Nat} :
    ∀ {i : Nat} {l : List Nat}, kp ∈ enumP i l → i ≤ kp.1 := by
  intro i l
  induction l generalizing i with
  | nil => intro h; simp [enumP] at h
  | cons p tl ih =>
    intro h
    rcases (by simpa [enumP] using h : kp = (i, p) ∨ kp ∈ enumP (i + 1) tl) with
      h | h
    · subst h; simp
    · have := ih h; omega

theorem enumP_pairwise : ∀ (i : Nat) (l : List Nat),
    (enumP i l).Pairwise (fun a b => a.1 < b.1) := by
  intro i l
  induction l generalizing i with
  | nil => exact List.Pairwise.nil
  | cons p tl ih =>
    refine List.Pairwise.cons ?_ (ih (i + 1))
    intro b hb
    have := mem_enumP_le hb
    simpa using Nat.lt_of_lt_of_le (Nat.lt_succ_self i) this

theorem sliceScan_sublist (pend : Nat) (ign : List (Nat × Nat)) :
    ∀ l : List (Nat × Nat), List.Sublist (sliceScan pend ign l) l := by
  intro l
  induction l with
  | nil => simp [sliceScan]
  | cons kp tl ih =>
    rcases kp with ⟨k, pos⟩
    by_cases h1 : pend ≤ pos
    · simp only [sliceScan, if_pos h1]; exact List.nil_sublist _
    · by_cases h2 : inRanges pos ign
      · simp only [sliceScan, if_neg h1, if_pos h2]; exact ih.cons _
      · simp only [sliceScan, if_neg h1, if_neg h2]
        exact List.Sublist.cons₂ _ ih

theorem sliceScan_not_inRanges {pend : Nat} {ign : List (Nat × Nat)}
    {kp : Nat × Nat} :
    ∀ {l : List (Nat × Nat)}, kp ∈ sliceScan pend ign l →
    inRanges kp.2 ign = false := by
  intro l
  induction l with
  | nil => intro h; simp [sliceScan] at h
  | cons hd tl ih =>
    rcases hd with ⟨k, pos⟩
    intro h
    by_cases h1 : pend ≤ pos
    · simp [sliceScan, h1] at h
    · by_cases h2 : inRanges pos ign
      · exact ih (by simpa [sliceScan, h1, h2] using h)
      · rcases (by simpa [sliceScan, h1, h2] using h :
            kp = (k, pos) ∨ kp ∈ sliceScan pend ign tl) with h | h
        · subst h; simpa using h2
        · exact ih h

/-- Every pair selected for a requested id comes from the enumeration of
the offset table. -/
theorem mem_extractFor {positions : List Nat} {md : MatchData}
    {ignSub : List String} {numid : String} {kp : Nat × Nat}
    (h : kp ∈ extractFor positions md ignSub numid) :
    kp ∈ enumP 0 positions := by
  unfold extractFor at h
  rcases hs : capSpan md numid with - | ⟨pbeg, pend⟩
  · simp [hs] at h
  · rw [hs] at h
    exact List.drop_subset _ _ ((sliceScan_sublist _ _ _).subset h)

/-- Token indices selected for a requested id are below the offset-table
size. -/
theorem extractFor_idx_lt {positions : List Nat} {md : MatchData}
    {ignSub : List String} {numid : String} {kp : Nat × Nat}
    (h : kp ∈ extractFor positions md ignSub numid) :
    kp.1 < positions.length := by
  simpa using mem_enumP_lt (mem_extractFor h)

/-- The pairs selected for one requested id have strictly increasing
token indices. -/
theorem extractFor_pairwise (positions : List Nat) (md : MatchData)
    (ignSub : List String) (numid : String) :
    (extractFor positions md ignSub numid).Pairwise
      (fun a b => a.1 < b.1) := by
  unfold extractFor
  rcases hs : capSpan md numid with - | ⟨pbeg, pend⟩
  · simp
  · exact List.Pairwise.sublist
      ((sliceScan_sublist _ _ _).trans (List.drop_sublist _ _))
      (enumP_pairwise 0 positions)

/-- Every index in an extracted `MatchResult` is below the offset-table
size. -/
theorem extractMatch_idx_lt {words : List PWord} {positions : List Nat}
    {md : MatchData} {numidOrder : List String}
    {ignSubOf : String → List String} {k : Nat}
    (h : k ∈ (extractMatch words positions md numidOrder ignSubOf).idx) :
    k < positions.length := by
  unfold extractMatch at h
  simp only [List.mem_map, List.mem_flatMap] at h
  rcases h with ⟨kp, ⟨numid, _, hkp⟩, rfl⟩
  exact extractFor_idx_lt hkp

/-- Every element of the `matches_here` list is the extraction of some
regex match. -/
theorem mem_matchesAtLoop {engineFuel : Nat} {regex : Regex}
    {ws : List Char} {words : List PWord} {positions : List Nat}
    {numidOrder : List String} {ignSubOf : String → List String}
    {anchorEnd : Bool} {currentStart : Nat} {mr : MRes} :
    ∀ {fuel currentEnd : Nat} {mh : List MRes},
    matchesAtLoop engineFuel regex ws words positions numidOrder ignSubOf
      anchorEnd currentStart fuel currentEnd = some mh →
    mr ∈ mh →
    ∃ md, mr = extractMatch words positions md numidOrder ignSubOf := by
  intro fuel
  induction fuel with
  | zero => intro ce mh h; simp [matchesAtLoop] at h
  | succ n ih =>
    intro ce mh h hm
    rw [matchesAtLoop] at h
    split at h
    · exact absurd h (by simp)
    · simp only [Option.some.injEq] at h
      subst h; simp at hm
    · split at h
      · simp only [Option.some.injEq] at h
        subst h
        simp at hm
        exact ⟨_, hm⟩
      · split at h
        · exact absurd h (by simp)
        · rename_i rest hrest
          simp only [Option.some.injEq] at h
          subst h
          rcases (by simpa using hm) with hm | hm
          · exact ⟨_, hm⟩
          · exact ih hrest hm

/-- Every element of `matches_here` at a cursor is an extraction of a
regex match over the encoded sentence. -/
theorem mem_matchesHereAt {m : Matcher} {words : List PWord}
    {numidOrder : List String} {anchorEnd : Bool} {engineFuel i : Nat}
    {mh : List MRes} {mr : MRes}
    (h : matchesHereAt m words numidOrder anchorEnd engineFuel i = some mh)
    (hm : mr ∈ mh) :
    ∃ md, mr = extractMatch words (encodePositions words) md numidOrder
      m.ignoredSubOf :=
  mem_matchesAtLoop h hm

/-- Everything the scan yields is an element of the `matches_here` list
of some cursor position. -/
theorem mem_scanRun_yields {m : Matcher} {words : List PWord}
    {policy : String} {ov : Bool} {no : List String} {aB aE : Bool}
    {ef : Nat} {mr : MRes} :
    ∀ {sf i : Nat},
    mr ∈ (scanRun m words policy ov no aB aE ef sf i).yields →
    ∃ j mh, j < (encodePositions words).length ∧
      matchesHereAt m words no aE ef j = some mh ∧ mr ∈ mh := by
  intro sf
  induction sf with
  | zero => intro i h; simp [scanRun] at h
  | succ n ih =>
    intro i h
    rw [scanRun] at h
    split at h
    · split at h
      · simp at h
      · rename_i mh hmh
        split at h
        · -- policy = "All"
          split at h
          · simp at h
          · split at h
            · exact ⟨i, mh, by assumption, hmh, by simpa using h⟩
            · rcases (by simpa [prependYields] using h) with h | h
              · exact ⟨i, mh, by assumption, hmh, h⟩
              · exact ih h
        · split at h
          · -- policy = "Longest"
            split at h
            · -- mh = []
              split at h
              · simp at h
              · exact ih h
            · rename_i m0 rest
              cases aB with
              | true =>
                exact ⟨i, m0 :: rest, by assumption, hmh, by simp [(by simpa using h : mr = m0)]⟩
              | false =>
                rcases (by simpa [prependYields] using h) with h | h
                · exact ⟨i, m0 :: rest, by assumption, hmh, by simp [h]⟩
                · exact ih h
          · split at h
            · -- policy = "Shortest"
              split at h
              · split at h
                · simp at h
                · exact ih h
              · rename_i mL hLast
                cases aB with
                | true =>
                  refine ⟨i, mh, by assumption, hmh, ?_⟩
                  rw [(by simpa using h : mr = mL)]
                  exact List.mem_of_mem_getLast? hLast
                | false =>
                  rcases (by simpa [prependYields] using h) with h | h
                  · exact ⟨i, mh, by assumption, hmh, h ▸ List.mem_of_mem_getLast? hLast⟩
                  · exact ih h
            · simp at h
    · simp at h

/-! ## Concrete instances used by the claims -/

/-- Engine fuel amply sufficient for the small concrete scenarios. -/
def efC : Nat := 3000

/-- A token whose four attributes are the given lemma plus fixed
surface/pos/syn values. -/
def mkW (s : String) : PWord := ⟨s, s, "N", "x"⟩

/-- Pattern `seq([lemma="a"])`. -/
def patA : Pattern := .seq none none false [.word none [("lemma", [.litp "a"])] []]

/-- The compiled matcher of `patA`. -/
def mA : Matcher := match compileP patA with | .ok m => m | .error _ => default

/-- Pattern `seq([lemma="a"] seq{ignore}([lemma="b"]) [lemma="a"])`:
an ignored middle word. -/
def patIgn : Pattern := .seq none none false
  [.word none [("lemma", [.litp "a"])] [],
   .seq none none true [.word none [("lemma", [.litp "b"])] []],
   .word none [("lemma", [.litp "a"])] []]

/-- The compiled matcher of `patIgn`. -/
def mIgn : Matcher := match compileP patIgn with | .ok m => m | .error _ => default

/-- Pattern `seq([lemma="a"] [lemma="b"])`. -/
def patAB : Pattern := .seq none none false
  [.word none [("lemma", [.litp "a"])] [], .word none [("lemma", [.litp "b"])] []]

/-- The compiled matcher of `patAB`. -/
def mAB : Matcher := match compileP patAB with | .ok m => m | .error _ => default

/-- Pattern `seq([lemma="a"]{id=Z})`: one word carrying id `Z`. -/
def patZ : Pattern := .seq none none false [.word (some "Z") [("lemma", [.litp "a"])] []]

/-- The compiled matcher of `patZ`. -/
def mZ : Matcher := match compileP patZ with | .ok m => m | .error _ => default

/-! ## C10 — empty token sequence -/

/-- C10 (confirmed).  For the empty token sequence, `matches` yields no
`MatchResult` and raises no error, for every selection-policy string and
every combination of the `overlapping`, `anchor_begin` and `anchor_end`
flags — including a malformed policy string and `All` with
`overlapping = false` — because the policy checks sit inside the
per-token scan loop, which never runs when the offset table is empty.
(The scan fuel is written `sf + 1` so the statement covers every
positive fuel; with the empty offset table the very first iteration
exits the loop.) -/
theorem c10_empty_sentence_no_error (m : Matcher) (policy : String)
    (ov : Bool) (ids : List String) (aB aE : Bool) (ef sf : Nat) :
    pmMatches m [] policy ov ids aB aE ef (sf + 1) = ⟨[], .done⟩ := rfl

/-! ## C6 — fatal configuration errors -/

/-- The offset table of a non-empty sentence is non-empty. -/
theorem encodePositions_pos {words : List PWord} (h : words ≠ []) :
    0 < (encodePositions words).length := by
  rw [encodePositions_length]
  exact List.length_pos.mpr h

/-- C6 (confirmed).  On a non-empty sentence whose first
`matches_here` computation completes, `matches` aborts with a fatal
configuration error — yielding nothing — when the policy string is not
one of `All`/`Longest`/`Shortest` (error `Bad match_distance: ...`), and
likewise when `All` is combined with `overlapping = false` (error
`All requires Overlapping`).  For the empty sentence no error is raised
(claim C10): the checks sit inside the scan loop. -/
theorem c6_fatal_config_errors (m : Matcher) (words : List PWord)
    (policy : String) (ov : Bool) (ids : List String) (aB aE : Bool)
    (ef sf : Nat) (mh : List MRes)
    (hw : words ≠ [])
    (hmh : matchesHereAt m words (strids2numids m ids) aE ef 0 = some mh) :
    (policy ∉ (["All", "Longest", "Shortest"] : List String) →
      pmMatches m words policy ov ids aB aE ef (sf + 1) =
        ⟨[], .err ("Bad match_distance: " ++ policy)⟩) ∧
    (policy = "All" → ov = false →
      pmMatches m words policy ov ids aB aE ef (sf + 1) =
        ⟨[], .err "All requires Overlapping"⟩) := by
  constructor
  · intro hpol
    have h1 : policy ≠ "All" := by intro hc; exact hpol (by simp [hc])
    have h2 : policy ≠ "Longest" := by intro hc; exact hpol (by simp [hc])
    have h3 : policy ≠ "Shortest" := by intro hc; exact hpol (by simp [hc])
    unfold pmMatches
    rw [scanRun, if_pos (encodePositions_pos hw), hmh]
    simp [h1, h2, h3]
  · intro hpol hov
    subst hpol; subst hov
    unfold pmMatches
    rw [scanRun, if_pos (encodePositions_pos hw), hmh]
    simp

/-! ## C1 — the lazy match sequence is NOT always finite (code bug) -/

/-- The one-token sentence with lemma `a`. -/
def wordsA : List PWord := [mkW "a"]

/-- C1 (code bug).  Failing input: pattern `seq([lemma="a"])` compiled
and run over the one-token sentence `[a]` with policy `Longest`,
`overlapping = false` and the requested-id list `["zz"]` (an id the
pattern does not define, which per the source is merely warned about and
skipped).  `matches_here` at token 0 is then the single pair
`(Ngram([]), [])` — the match participates but no requested id
contributes indices — so `increment = len(matches_here[0][0]) = 0` and
the cursor never advances: pulling the generator to exhaustion never
terminates.  In the model: for every scan fuel the scan ends in
`fuelOut`, never in `done` (each iteration yields the empty MatchResult
again and leaves the cursor at 0).  This contradicts the specified
finiteness/bounded-work contract. -/
theorem c1_nonoverlapping_scan_diverges (sf : Nat) :
    (pmMatches mA wordsA "Longest" false ["zz"] false false efC sf).out =
      .fuelOut ∧
    (pmMatches mA wordsA "Longest" false ["zz"] false false efC sf).yields.length
      = sf := by
  induction sf with
  | zero => exact ⟨rfl, rfl⟩
  | succ n ih =>
    refine ⟨ih.1, ?_⟩
    show (MRes.mk [] [] ::
      (pmMatches mA wordsA "Longest" false ["zz"] false false efC n).yields).length
      = n + 1
    rw [List.length_cons, ih.2]

/-! ## C2 — cursor advance after a non-overlapping match -/

/-- The five-token sentence `a b a b a`. -/
def wordsABABA : List PWord :=
  [mkW "a", mkW "b", mkW "a", mkW "b", mkW "a"]

/-- The four-token sentence `a b a b`. -/
def wordsABAB : List PWord := [mkW "a", mkW "b", mkW "a", mkW "b"]

/-- C2 counterexample.  Pattern
`seq([lemma="a"] seq{ignore}([lemma="b"]) [lemma="a"])` over `a b a b a`
under `Longest` with `overlapping = false` and the default requested id:
the first match consumes tokens 0..2 (token 1 ignored, so the yielded
index list is `[0, 2]` of length 2), the cursor therefore advances by 2
— **into** the matched span, not past it — and a second, overlapping
match `[2, 4]` is yielded.  Its leading index 2 equals the first match's
trailing index 2, refuting "the next cursor position is after the last
token consumed by the match" and the `≥ trailing + 1` consequence. -/
theorem c2_counterexample_ignored_tokens :
    (pmMatches mIgn wordsABABA "Longest" false ["*"] false false efC 12).yields.map
        (·.idx) = [[0, 2], [2, 4]] ∧
    (pmMatches mIgn wordsABABA "Longest" false ["*"] false false efC 12).out =
      .done := by
  constructor
  · decide
  · decide

/-- C2 (corrected).  Under `Longest` — and likewise under `Shortest`,
which yields the last element of `matches_here` — with
`overlapping = false`, after a match is yielded the cursor advances by
the **number of token indices in the yielded MatchResult**
(`increment = len(matches_here[0][0])`), not necessarily past the full
matched span; the two coincide exactly when the default whole-match id
is requested and the match contains no ignored tokens.  In that benign
case the concrete two-adjacent-matches scenario holds for both
policies: `seq([lemma="a"] [lemma="b"])` over `a b a b`, pulled to
exhaustion (the scan ends in `.done`), yields exactly the two
MatchResults `[0,1]` and `[2,3]`, the second's leading index `2` being
the first's trailing index `1` plus one. -/
theorem c2_amended_advance_by_yield_length :
    (∀ (m : Matcher) (words : List PWord) (no : List String) (aE : Bool)
        (ef sf i : Nat) (mr : MRes) (rest : List MRes),
        matchesHereAt m words no aE ef i = some (mr :: rest) →
        i < (encodePositions words).length →
        scanRun m words "Longest" false no false aE ef (sf + 1) i =
          prependYields [mr]
            (scanRun m words "Longest" false no false aE ef sf
              (i + mr.ngram.length))) ∧
    (∀ (m : Matcher) (words : List PWord) (no : List String) (aE : Bool)
        (ef sf i : Nat) (mh : List MRes) (mL : MRes),
        matchesHereAt m words no aE ef i = some mh →
        mh.getLast? = some mL →
        i < (encodePositions words).length →
        scanRun m words "Shortest" false no false aE ef (sf + 1) i =
          prependYields [mL]
            (scanRun m words "Shortest" false no false aE ef sf
              (i + mL.ngram.length))) ∧
    ((pmMatches mAB wordsABAB "Longest" false ["*"] false false efC
        12).yields.map (·.idx) = [[0, 1], [2, 3]] ∧
      (pmMatches mAB wordsABAB "Longest" false ["*"] false false efC
        12).out = .done) ∧
    ((pmMatches mAB wordsABAB "Shortest" false ["*"] false false efC
        12).yields.map (·.idx) = [[0, 1], [2, 3]] ∧
      (pmMatches mAB wordsABAB "Shortest" false ["*"] false false efC
        12).out = .done) := by
  refine ⟨?_, ?_, ⟨by decide, by decide⟩, ⟨by decide, by decide⟩⟩
  · intro m words no aE ef sf i mr rest hmh hi
    rw [scanRun, if_pos hi, hmh]
    simp
  · intro m words no aE ef sf i mh mL hmh hlast hi
    rw [scanRun, if_pos hi, hmh]
    simp [hlast]

/-- Witness for the amended C2: the hypotheses hold at the concrete
input `mAB` / `a b a b` / cursor 0, and both the `Longest` and the
`Shortest` advance rules instantiate to the concrete advance-by-two
step. -/
theorem c2_amended_advance_witness :
    matchesHereAt mAB wordsABAB ["id_*"] false efC 0 =
        some [⟨[mkW "a", mkW "b"], [0, 1]⟩] ∧
    ([(⟨[mkW "a", mkW "b"], [0, 1]⟩ : MRes)].getLast?
        = some ⟨[mkW "a", mkW "b"], [0, 1]⟩) ∧
    scanRun mAB wordsABAB "Longest" false ["id_*"] false false efC 12 0 =
      prependYields [⟨[mkW "a", mkW "b"], [0, 1]⟩]
        (scanRun mAB wordsABAB "Longest" false ["id_*"] false false efC 11
          (0 + (MRes.mk [mkW "a", mkW "b"] [0, 1]).ngram.length)) ∧
    scanRun mAB wordsABAB "Shortest" false ["id_*"] false false efC 12 0 =
      prependYields [⟨[mkW "a", mkW "b"], [0, 1]⟩]
        (scanRun mAB wordsABAB "Shortest" false ["id_*"] false false efC 11
          (0 + (MRes.mk [mkW "a", mkW "b"] [0, 1]).ngram.length)) :=
  ⟨by decide, by decide,
    c2_amended_advance_by_yield_length.1 mAB wordsABAB ["id_*"] false efC 11 0
      ⟨[mkW "a", mkW "b"], [0, 1]⟩ [] (by decide) (by decide),
    c2_amended_advance_by_yield_length.2.1 mAB wordsABAB ["id_*"] false efC
      11 0 [⟨[mkW "a", mkW "b"], [0, 1]⟩] ⟨[mkW "a", mkW "b"], [0, 1]⟩
      (by decide) (by decide) (by decide)⟩

/-- Witness for C6: at the concrete matcher `mA` over the one-token
sentence both fatal configuration errors fire. -/
theorem c6_fatal_config_witness :
    wordsA ≠ [] ∧
    pmMatches mA wordsA "Weird" true ["*"] false false efC 3 =
      ⟨[], .err "Bad match_distance: Weird"⟩ ∧
    pmMatches mA wordsA "All" false ["*"] false false efC 3 =
      ⟨[], .err "All requires Overlapping"⟩ :=
  ⟨by decide,
   (c6_fatal_config_errors mA wordsA "Weird" true ["*"] false false efC 2
      [⟨[mkW "a"], [0]⟩] (by decide) (by decide)).1 (by decide),
   (c6_fatal_config_errors mA wordsA "All" false ["*"] false false efC 2
      [⟨[mkW "a"], [0]⟩] (by decide) (by decide)).2 rfl rfl⟩

/-! ## C4 — index bounds and (non-)distinctness -/

/-- A single requested id resolves to at most one group name. -/
theorem strids2numids_single (m : Matcher) (sid : String) :
    strids2numids m [sid] = [] ∨
    strids2numids m [sid] = ["id_" ++ sid] := by
  unfold strids2numids
  by_cases hc : ("id_" ++ sid = "id_*" || "id_" ++ sid ∈ m.groupNames)
  · right; simp [List.filterMap, hc]
  · left; simp [List.filterMap, hc]

/-- C4 counterexample.  Pattern `seq([lemma="a"]{id=Z})` over the
one-token sentence with the requested-id list `["*", "Z"]`: the single
yielded MatchResult has index list `[0, 0]` — token 0 is reported once
for the whole-match id and once for `Z` — so the indices of a single
MatchResult are not pairwise distinct.  (The source's own docstring
example in `_matches_at`, `wordnums: 2 0 2 3 1`, shows the same
duplication.) -/
theorem c4_counterexample_duplicate_indices :
    (pmMatches mZ wordsA "All" true ["*", "Z"] false false efC 5).yields.map
        (·.idx) = [[0, 0]] ∧
    ¬ (∀ mr ∈ (pmMatches mZ wordsA "All" true ["*", "Z"] false false efC 5).yields,
        mr.idx.Pairwise (· ≠ ·)) := by
  constructor
  · decide
  · decide

/-- C4 (corrected).  For every compiled pattern, sentence and
configuration: (1) every token index in every yielded MatchResult lies
in `[0, len(S))`; (2) when a single id is requested (in particular the
default `("*",)`), the index list of each yielded MatchResult is
strictly increasing, hence pairwise distinct.  With several requested
ids the indices are the concatenation of the per-id extractions and may
repeat across ids (see the counterexample). -/
theorem c4_amended_bounds_and_per_id_distinctness :
    (∀ (p : Pattern) (m : Matcher) (words : List PWord) (policy : String)
        (ov : Bool) (ids : List String) (aB aE : Bool) (ef sf : Nat)
        (mr : MRes) (k : Nat),
        compileP p = .ok m →
        mr ∈ (pmMatches m words policy ov ids aB aE ef sf).yields →
        k ∈ mr.idx → k < words.length) ∧
    (∀ (p : Pattern) (m : Matcher) (words : List PWord) (policy : String)
        (ov : Bool) (sid : String) (aB aE : Bool) (ef sf : Nat) (mr : MRes),
        compileP p = .ok m →
        mr ∈ (pmMatches m words policy ov [sid] aB aE ef sf).yields →
        mr.idx.Pairwise (· < ·)) := by
  constructor
  · intro p m words policy ov ids aB aE ef sf mr k _hc hmem hk
    obtain ⟨j, mh, hj, hmh, hm⟩ := mem_scanRun_yields hmem
    obtain ⟨md, rfl⟩ := mem_matchesHereAt hmh hm
    have := extractMatch_idx_lt hk
    rwa [encodePositions_length] at this
  · intro p m words policy ov sid aB aE ef sf mr _hc hmem
    obtain ⟨j, mh, hj, hmh, hm⟩ := mem_scanRun_yields hmem
    obtain ⟨md, rfl⟩ := mem_matchesHereAt hmh hm
    rcases strids2numids_single m sid with hno | hno <;>
      rw [extractMatch, hno]
    · simp
    · simp only [List.flatMap_cons, List.flatMap_nil, List.append_nil]
      exact List.pairwise_map.mpr (extractFor_pairwise _ _ _ _)

/-- Witness for the amended C4 at the concrete matcher `mA`. -/
theorem c4_amended_witness :
    compileP patA = .ok mA ∧ (0 : Nat) < wordsA.length ∧
    (MRes.mk [mkW "a"] [0]).idx.Pairwise (· < ·) :=
  ⟨rfl,
   c4_amended_bounds_and_per_id_distinctness.1 patA mA wordsA "All" true ["*"]
     false false efC 5 ⟨[mkW "a"], [0]⟩ 0 rfl (by decide) (by decide),
   c4_amended_bounds_and_per_id_distinctness.2 patA mA wordsA "All" true "*"
     false false efC 5 ⟨[mkW "a"], [0]⟩ rfl (by decide)⟩

/-! ## C5 — All (overlapping) is a superset of Longest (overlapping) -/

/-- One scan step under policy `All` with `overlapping = true`. -/
theorem scanRun_step_all {m : Matcher} {words : List PWord}
    {no : List String} {aB aE : Bool} {ef n i : Nat} {mh : List MRes}
    (hlen : i < (encodePositions words).length)
    (hmh : matchesHereAt m words no aE ef i = some mh) :
    scanRun m words "All" true no aB aE ef (n + 1) i =
      if aB then ⟨mh, .done⟩
      else prependYields mh (scanRun m words "All" true no aB aE ef n (i + 1)) := by
  rw [scanRun, if_pos hlen, hmh]
  rfl

/-- One scan step under `Longest`/`overlapping = true` when nothing
matches at the cursor. -/
theorem scanRun_step_longest_nil {m : Matcher} {words : List PWord}
    {no : List String} {aB aE : Bool} {ef n i : Nat}
    (hlen : i < (encodePositions words).length)
    (hmh : matchesHereAt m words no aE ef i = some []) :
    scanRun m words "Longest" true no aB aE ef (n + 1) i =
      if aB then ⟨[], .done⟩
      else scanRun m words "Longest" true no aB aE ef n (i + 1) := by
  rw [scanRun, if_pos hlen, hmh]
  rfl

/-- One scan step under `Longest`/`overlapping = true` when the cursor
has matches: only the longest is yielded and the cursor moves by one. -/
theorem scanRun_step_longest_cons {m : Matcher} {words : List PWord}
    {no : List String} {aB aE : Bool} {ef n i : Nat} {m0 : MRes}
    {rest : List MRes}
    (hlen : i < (encodePositions words).length)
    (hmh : matchesHereAt m words no aE ef i = some (m0 :: rest)) :
    scanRun m words "Longest" true no aB aE ef (n + 1) i =
      if aB then ⟨[m0], .done⟩
      else prependYields [m0]
        (scanRun m words "Longest" true no aB aE ef n (i + 1)) := by
  rw [scanRun, if_pos hlen, hmh]
  rfl

/-- Core of C5: with `overlapping = true` both policies scan the same
cursor positions with the same `matches_here` lists; `Longest` yields
the head of each list, `All` the whole list. -/
theorem scanRun_longest_subset_all {m : Matcher} {words : List PWord}
    {no : List String} {aB aE : Bool} {ef : Nat} {mr : MRes} :
    ∀ {sf i : Nat},
    mr ∈ (scanRun m words "Longest" true no aB aE ef sf i).yields →
    mr ∈ (scanRun m words "All" true no aB aE ef sf i).yields := by
  intro sf
  induction sf with
  | zero => intro i h; simp [scanRun] at h
  | succ n ih =>
    intro i h
    by_cases hlen : i < (encodePositions words).length
    · rcases hmh : matchesHereAt m words no aE ef i with - | mh
      · rw [scanRun, if_pos hlen, hmh] at h
        simp at h
      · rcases mh with - | ⟨m0, rest⟩
        · rw [scanRun_step_longest_nil hlen hmh] at h
          rw [scanRun_step_all hlen hmh]
          cases aB with
          | true => simp at h
          | false =>
            simp only [if_neg Bool.false_ne_true] at h ⊢
            simpa [prependYields] using ih h
        · rw [scanRun_step_longest_cons hlen hmh] at h
          rw [scanRun_step_all hlen hmh]
          cases aB with
          | true =>
            simp only [if_pos rfl] at h ⊢
            simp [(by simpa using h : mr = m0)]
          | false =>
            simp only [if_neg Bool.false_ne_true, prependYields] at h ⊢
            rcases (by simpa using h) with h | h
            · simp [h]
            · simp only [List.mem_append]
              exact Or.inr (ih h)
    · rw [scanRun, if_neg hlen] at h
      simp at h

/-- C5 (confirmed).  For every compiled pattern and sentence, every
MatchResult yielded by `matches(S, "Longest", overlapping=true)` is also
yielded by `matches(S, "All", overlapping=true)` (for any requested ids
and anchor flags); in particular the set of match spans of `All` is a
superset of that of `Longest`. -/
theorem c5_all_superset_of_longest (p : Pattern) (m : Matcher)
    (words : List PWord) (ids : List String) (aB aE : Bool) (ef sf : Nat)
    (mr : MRes)
    (_hc : compileP p = .ok m)
    (h : mr ∈ (pmMatches m words "Longest" true ids aB aE ef sf).yields) :
    mr ∈ (pmMatches m words "All" true ids aB aE ef sf).yields :=
  scanRun_longest_subset_all h

/-- Witness for C5 at the concrete matcher `mA`: the unique Longest
result over `[a]` is also an All result. -/
theorem c5_all_superset_witness :
    MRes.mk [mkW "a"] [0] ∈
      (pmMatches mA wordsA "All" true ["*"] false false efC 5).yields :=
  c5_all_superset_of_longest patA mA wordsA ["*"] false false efC 5
    ⟨[mkW "a"], [0]⟩ rfl (by decide)

/-! ## C3 — the ignore invariant -/

/-- No pair selected for a requested id has its token offset inside any
ignored descendant span of that id. -/
theorem extractFor_avoids_ignored {positions : List Nat} {md : MatchData}
    {ignSub : List String} {numid nid : String} {kp : Nat × Nat}
    {a b : Nat}
    (hk : kp ∈ extractFor positions md ignSub numid)
    (hnid : nid ∈ ignSub) (hspan : capSpan md nid = some (a, b)) :
    ¬(a ≤ kp.2 ∧ kp.2 < b) := by
  rintro ⟨h1, h2⟩
  unfold extractFor at hk
  rcases hs : capSpan md numid with - | ⟨pbeg, pend⟩
  · rw [hs] at hk; simp at hk
  · rw [hs] at hk
    have hfalse := sliceScan_not_inRanges hk
    unfold inRanges at hfalse
    rw [List.any_eq_false] at hfalse
    have := hfalse (a, b) (List.mem_filterMap.mpr ⟨nid, hnid, hspan⟩)
    simp at this
    omega

/-- C3 (confirmed).  Every yielded MatchResult's index list is the
concatenation, over the requested ids in caller order, of the per-id
extraction of some regex match; and for each requested id, no extracted
token's start offset lies inside the matched span of any ignored
descendant slot (`ignored_sub_numids`) of that id — the
`_matches_at` filter drops exactly those tokens. -/
theorem c3_ignored_descendant_exclusion (p : Pattern) (m : Matcher)
    (words : List PWord) (policy : String) (ov : Bool) (ids : List String)
    (aB aE : Bool) (ef sf : Nat) (mr : MRes)
    (_hc : compileP p = .ok m)
    (hmem : mr ∈ (pmMatches m words policy ov ids aB aE ef sf).yields) :
    ∃ md : MatchData,
      mr.idx = ((strids2numids m ids).flatMap (fun numid =>
        extractFor (encodePositions words) md (m.ignoredSubOf numid)
          numid)).map (·.1) ∧
      ∀ numid ∈ strids2numids m ids,
        ∀ kp ∈ extractFor (encodePositions words) md (m.ignoredSubOf numid)
            numid,
          ∀ nid ∈ m.ignoredSubOf numid, ∀ a b : Nat,
            capSpan md nid = some (a, b) → ¬(a ≤ kp.2 ∧ kp.2 < b) := by
  obtain ⟨j, mh, hj, hmh, hm⟩ := mem_scanRun_yields hmem
  obtain ⟨md, rfl⟩ := mem_matchesHereAt hmh hm
  refine ⟨md, rfl, ?_⟩
  intro numid _ kp hkp nid hnid a b hspan
  exact extractFor_avoids_ignored hkp hnid hspan

/-- Witness for C3 at the concrete ignored-middle-word matcher: the
first match over `a b a b a` yields indices `[0, 2]`, skipping the
ignored token 1, and the theorem instantiates there. -/
theorem c3_ignored_descendant_witness :
    ∃ md : MatchData,
      (MRes.mk [mkW "a", mkW "a"] [0, 2]).idx =
        ((strids2numids mIgn ["*"]).flatMap (fun numid =>
          extractFor (encodePositions wordsABABA) md (mIgn.ignoredSubOf numid)
            numid)).map (·.1) ∧
      ∀ numid ∈ strids2numids mIgn ["*"],
        ∀ kp ∈ extractFor (encodePositions wordsABABA) md
            (mIgn.ignoredSubOf numid) numid,
          ∀ nid ∈ mIgn.ignoredSubOf numid, ∀ a b : Nat,
            capSpan md nid = some (a, b) → ¬(a ≤ kp.2 ∧ kp.2 < b) :=
  c3_ignored_descendant_exclusion patIgn mIgn wordsABABA "Longest" false ["*"]
    false false efC 12 ⟨[mkW "a", mkW "a"], [0, 2]⟩ rfl (by decide)

/-! ## C7 — duplicate declared ids are fatal -/

/-- Recover `x` from a group name of the form `id_x`; the other emitted
name shapes (`wid_...`, `ignore_...`, `foreid_...`) yield `none`. -/
def stripId (n : String) : Option String :=
  match n.data with
  | 'i' :: 'd' :: '_' :: rest => some ⟨rest⟩
  | _ => none

theorem stripId_id (s : String) : stripId ("id_" ++ s) = some s := by
  cases s with
  | mk d => rfl

theorem stripId_wid (s a : String) :
    stripId ("wid_" ++ s ++ a) = none := by
  cases s with
  | mk d => cases a with
    | mk d' => rfl

theorem stripId_ignore (s : String) : stripId ("ignore_" ++ s) = none := by
  cases s with
  | mk d => rfl

theorem stripId_foreid (s : String) : stripId ("foreid_" ++ s) = none := by
  cases s with
  | mk d => rfl

/-- Injectivity of `stripId` on its domain. -/
theorem stripId_inj {a b : String} {c : String}
    (ha : stripId a = some c) (hb : stripId b = some c) : a = b := by
  rcases a with ⟨da⟩
  rcases b with ⟨db⟩
  unfold stripId at ha hb
  split at ha
  next r1 e1 =>
    split at hb
    next r2 e2 =>
      simp only [Option.some.injEq] at ha hb
      have hda : da = 'i' :: 'd' :: '_' :: r1 := by simpa using e1
      have hdb : db = 'i' :: 'd' :: '_' :: r2 := by simpa using e2
      have hr : r1 = r2 := by
        have h1 := congrArg String.data ha
        have h2 := congrArg String.data hb
        simp only at h1 h2
        rw [h1, h2]
      subst hda
      subst hdb
      rw [hr]
    next => exact absurd hb (by simp)
  next => exact absurd ha (by simp)

theorem collectGroups_rcats (rs : List Regex) :
    collectGroups (rcats rs) = (rs.map collectGroups).flatten := by
  induction rs with
  | nil => rfl
  | cons r tl ih => simp [rcats, collectGroups, ih]

theorem collectGroups_ralts (rs : List Regex) :
    collectGroups (ralts rs) = (rs.map collectGroups).flatten := by
  induction rs with
  | nil => rfl
  | cons r tl ih =>
    cases tl with
    | nil => simp [ralts, collectGroups]
    | cons r' tl' => simp [ralts, collectGroups] at ih ⊢; exact ih

theorem collectGroups_applyRep (q : RepCmd) (r : Regex) :
    collectGroups (applyRep q r) = collectGroups r := by
  cases q <;> rfl

theorem collectGroups_starredRegex (l : List Char) :
    collectGroups (starredRegex l) = [] := by
  induction l with
  | nil => rfl
  | cons c tl ih =>
    by_cases hc : c = '*' <;>
      simp [starredRegex, hc, collectGroups, rWild, ih]

theorem collectGroups_base (p : WordProp) :
    collectGroups p.to_base_regex = [] := by
  cases p with
  | litp v => rfl
  | starred v => exact collectGroups_starredRegex v.data
  | backref w pr => rfl

theorem collectGroups_positiveVal (l : List WordProp) :
    collectGroups (positiveVal l) = [] := by
  cases l with
  | nil => rfl
  | cons p rest =>
    rw [positiveVal, collectGroups_rcats]
    simp only [List.map_append, List.map_map]
    rw [List.flatten_append]
    have h1 : ∀ x ∈ (rest.map
        (collectGroups ∘ WordProp.to_positive_lookahead_regex)), x = [] := by
      intro x hx
      simp only [List.mem_map, Function.comp] at hx
      rcases hx with ⟨pp, _, rfl⟩
      exact collectGroups_base pp
    simp [List.flatten_eq_nil_iff.mpr h1, collectGroups_base p]

theorem collectGroups_rcats_negs (y : List WordProp) (v : Regex)
    (hv : collectGroups v = []) :
    collectGroups
      (rcats (y.map WordProp.to_negative_lookahead_regex ++ [v])) = [] := by
  rw [collectGroups_rcats]
  simp only [List.map_append, List.map_map]
  rw [List.flatten_append]
  have h1 : ∀ z ∈ (y.map
      (collectGroups ∘ WordProp.to_negative_lookahead_regex)), z = [] := by
    intro z hz
    simp only [List.mem_map, Function.comp] at hz
    rcases hz with ⟨pp, _, rfl⟩
    simp [WordProp.to_negative_lookahead_regex, collectGroups,
      collectGroups_base pp]
  simp [List.flatten_eq_nil_iff.mpr h1, hv, collectGroups]

theorem collectGroups_attrVal (x : Option (List WordProp))
    (y : List WordProp) : collectGroups (attrVal x y) = [] := by
  cases x with
  | none =>
    show collectGroups
      (rcats (y.map WordProp.to_negative_lookahead_regex ++ [rWild])) = []
    exact collectGroups_rcats_negs y rWild rfl
  | some l =>
    show collectGroups
      (rcats (y.map WordProp.to_negative_lookahead_regex ++ [positiveVal l])) = []
    exact collectGroups_rcats_negs y (positiveVal l) (collectGroups_positiveVal l)

/-- The syndep handler only ever adds a `foreid_...` group: whatever it
returns contributes no `id_...` group names. -/
theorem parseWsyndep_groups {st2 : PState} {synR : Regex}
    {pp : List (String × List WordProp)} {st3 : PState} {synR2 : Regex}
    (hsyn : (collectGroups synR).filterMap stripId = [])
    (h : parseWsyndep st2 synR pp = .ok (st3, synR2)) :
    (collectGroups synR2).filterMap stripId = [] := by
  unfold parseWsyndep at h
  split at h
  · split at h
    · exact absurd h (by simp)
    · split at h
      · exact absurd h (by simp)
      · rename_i v hv spl deptype depref hspl
        by_cases hc : (⟨depref⟩ : String) ∈ st2.defined_w_ids
        · simp only [hc, if_true] at h
          simp only [Except.ok.injEq, Prod.mk.injEq] at h
          rw [← h.2]
          simp [collectGroups, rWild]
        · simp only [hc, if_false] at h
          simp only [Except.ok.injEq, Prod.mk.injEq] at h
          rw [← h.2]
          simp [collectGroups, rWild, stripId_foreid]
  · exact absurd h (by simp)
  · simp only [Except.ok.injEq, Prod.mk.injEq] at h
    rw [← h.2]
    exact hsyn

theorem collectGroups_wordFormat (a b c d e : Regex) :
    collectGroups (wordFormat a b c d e) =
      collectGroups a ++ (collectGroups b ++ (collectGroups c ++
        (collectGroups d ++ collectGroups e))) := by
  simp [wordFormat, collectGroups]

theorem parseW_groups {st : PState} {w_strid : Option String}
    {pp np : List (String × List WordProp)} {parent : String} {sc : Bool}
    {r : Regex} {st' : PState}
    (h : parseW st w_strid pp np parent sc = .ok (r, st')) :
    (collectGroups r).filterMap stripId = declOf w_strid := by
  unfold parseW at h
  rw [declOf]
  split at h
  next s hds =>
    dsimp only at h
    split at h
    · exact absurd h (by simp)
    · split at h
      · exact absurd h (by simp)
      · rename_i hdup st2 hok synx st3 synR2 hsynp
        simp only [Except.ok.injEq, Prod.mk.injEq] at h
        have hwn : collectGroups
            (match List.lookup s (checkScopeRepeat st sc).forepattern_ids with
              | some fore => Regex.bref ("foreid_" ++ fore)
              | none => rWild) = [] := by
          cases List.lookup s (checkScopeRepeat st sc).forepattern_ids <;>
            simp [collectGroups, rWild]
        have hsyn2 : (collectGroups synR2).filterMap stripId = [] :=
          parseWsyndep_groups
            (by simp [collectGroups, collectGroups_attrVal, stripId_wid]) hsynp
        rw [← h.1]
        simp [collectGroups, collectGroups_wordFormat, List.filterMap_append,
          List.filterMap_cons, stripId_id, stripId_wid, hwn, hsyn2,
          collectGroups_attrVal]
  next hds =>
    dsimp only at h
    split at h
    · exact absurd h (by simp)
    · rename_i synx st3 synR2 hsynp
      simp only [Except.ok.injEq, Prod.mk.injEq] at h
      have hsyn2 : (collectGroups synR2).filterMap stripId = [] :=
        parseWsyndep_groups (by simp [collectGroups_attrVal]) hsynp
      rw [← h.1]
      simp [collectGroups, collectGroups_wordFormat, List.filterMap_append,
        collectGroups_attrVal, hsyn2, rWild]

-- The `id_...` group names a pattern's fragment emits, in opening
-- order, are exactly its declared ids (pre-order).
mutual

/-- The group names a pattern node's fragment emits that are of the
form `id_x`, in opening order, are exactly its declared ids. -/
theorem parseP_groups : ∀ (p : Pattern) (st : PState) (parent : String)
    (sc : Bool) (r : Regex) (st' : PState),
    parseP p st parent sc = .ok (r, st') →
    (collectGroups r).filterMap stripId = declaredIds p
  | .word s pp np, st, parent, sc, r, st', h => by
    rw [declaredIds]
    exact @parseW_groups st s pp np parent sc r st' h
  | .seq seq_strid rep ign subs, st, parent, sc, r, st', h => by
    rw [declaredIds, declOf]
    rw [parseP] at h
    split at h
    rename_i st1 parent1 ignName heq
    split at heq <;> simp only [Prod.mk.injEq] at heq <;>
      obtain ⟨h1, h2, h3⟩ := heq <;> subst h3 <;> dsimp only at h <;>
      split at h
    case _ => simp at h
    case _ =>
      rename_i st2 parent2 idName hds
      split at h
      · simp at h
      · rename_i frs st3 hlist
        have ihl := parseList_groups subs _ _ _ _ _ hlist
        simp only [Except.ok.injEq, Prod.mk.injEq] at h
        rw [← h.1]
        split at hds
        next s2 hds2 =>
          split at hds
          · simp at hds
          · simp only [Except.ok.injEq, Prod.mk.injEq] at hds
            obtain ⟨g1, g2, g3⟩ := hds
            subst g3
            cases rep <;>
              simp [collectGroups, collectGroups_applyRep, collectGroups_rcats,
                stripId_ignore, stripId_id, ihl, List.filterMap_append]
        next hds2 =>
          simp only [Except.ok.injEq, Prod.mk.injEq] at hds
          obtain ⟨g1, g2, g3⟩ := hds
          subst g3
          cases rep <;>
            simp [collectGroups, collectGroups_applyRep, collectGroups_rcats,
              stripId_ignore, ihl, List.filterMap_append]
    case _ => simp at h
    case _ =>
      rename_i st2 parent2 idName hds
      split at h
      · simp at h
      · rename_i frs st3 hlist
        have ihl := parseList_groups subs _ _ _ _ _ hlist
        simp only [Except.ok.injEq, Prod.mk.injEq] at h
        rw [← h.1]
        split at hds
        next s2 hds2 =>
          split at hds
          · simp at hds
          · simp only [Except.ok.injEq, Prod.mk.injEq] at hds
            obtain ⟨g1, g2, g3⟩ := hds
            subst g3
            cases rep <;>
              simp [collectGroups, collectGroups_applyRep, collectGroups_rcats,
                stripId_id, ihl, List.filterMap_append]
        next hds2 =>
          simp only [Except.ok.injEq, Prod.mk.injEq] at hds
          obtain ⟨g1, g2, g3⟩ := hds
          subst g3
          cases rep <;>
            simp [collectGroups, collectGroups_applyRep, collectGroups_rcats,
              ihl, List.filterMap_append]
  | .either subs, st, parent, sc, r, st', h => by
    rw [declaredIds]
    rw [parseP] at h
    split at h
    · exact absurd h (by simp)
    · rename_i frs st1 hlist
      simp only [Except.ok.injEq, Prod.mk.injEq] at h
      rw [← h.1, collectGroups_ralts]
      exact parseList_groups subs _ _ _ _ _ hlist

theorem parseList_groups : ∀ (l : List Pattern) (st : PState)
    (parent : String) (sc : Bool) (rs : List Regex) (st' : PState),
    parseList l st parent sc = .ok (rs, st') →
    ((rs.map collectGroups).flatten).filterMap stripId = declaredIdsList l
  | [], st, parent, sc, rs, st', h => by
    simp only [parseList, Except.ok.injEq, Prod.mk.injEq] at h
    rw [← h.1, declaredIdsList]
    rfl
  | p :: tl, st, parent, sc, rs, st', h => by
    rw [parseList] at h
    split at h
    · exact absurd h (by simp)
    · rename_i r0 st1 hp
      split at h
      · exact absurd h (by simp)
      · rename_i rs1 st2 hl
        simp only [Except.ok.injEq, Prod.mk.injEq] at h
        rw [← h.1, declaredIdsList]
        simp only [List.map_cons, List.flatten_cons, List.filterMap_append]
        rw [parseP_groups p _ _ _ _ _ hp, parseList_groups tl _ _ _ _ _ hl]

end

/-- `checkRefs` accumulates the opened group names in opening order. -/
theorem checkRefs_opened : ∀ (r : Regex) (op cl op' cl' : List String),
    checkRefs r op cl = .ok (op', cl') → op' = op ++ collectGroups r := by
  intro r
  induction r with
  | eps => intro op cl op' cl' h; simp_all [checkRefs, collectGroups]
  | lit l => intro op cl op' cl' h; simp_all [checkRefs, collectGroups]
  | cls neg cs => intro op cl op' cl' h; simp_all [checkRefs, collectGroups]
  | cat a b iha ihb =>
    intro op cl op' cl' h
    rw [checkRefs] at h
    split at h
    · exact absurd h (by simp)
    · rename_i opm clm hm
      rw [collectGroups, ihb _ _ _ _ h, iha _ _ _ _ hm, List.append_assoc]
  | alt a b iha ihb =>
    intro op cl op' cl' h
    rw [checkRefs] at h
    split at h
    · exact absurd h (by simp)
    · rename_i opm clm hm
      rw [collectGroups, ihb _ _ _ _ h, iha _ _ _ _ hm, List.append_assoc]
  | star r ih => intro op cl op' cl' h; exact ih _ _ _ _ h
  | rep r lo hi ih => intro op cl op' cl' h; exact ih _ _ _ _ h
  | grp n r ih =>
    intro op cl op' cl' h
    rw [checkRefs] at h
    split at h
    · exact absurd h (by simp)
    · split at h
      · exact absurd h (by simp)
      · split at h
        · exact absurd h (by simp)
        · rename_i opm clm hm
          simp only [Except.ok.injEq, Prod.mk.injEq] at h
          rw [← h.1, ih _ _ _ _ hm, collectGroups]
          simp
  | bref n =>
    intro op cl op' cl' h
    rw [checkRefs] at h
    split at h
    · simp_all [collectGroups]
    · exact absurd h (by simp)
  | look neg r ih => intro op cl op' cl' h; exact ih _ _ _ _ h

/-- If `re.compile`'s checks pass, the group names (appended to the
already opened ones) are duplicate-free. -/
theorem checkRefs_nodup : ∀ (r : Regex) (op cl op' cl' : List String),
    checkRefs r op cl = .ok (op', cl') → op.Nodup →
    (op ++ collectGroups r).Nodup := by
  intro r
  induction r with
  | eps => intro op cl op' cl' h hn; simpa [collectGroups] using hn
  | lit l => intro op cl op' cl' h hn; simpa [collectGroups] using hn
  | cls neg cs => intro op cl op' cl' h hn; simpa [collectGroups] using hn
  | cat a b iha ihb =>
    intro op cl op' cl' h hn
    rw [checkRefs] at h
    split at h
    · exact absurd h (by simp)
    · rename_i opm clm hm
      have h1 := iha _ _ _ _ hm hn
      have hop := checkRefs_opened a op cl opm clm hm
      have h2 := ihb _ _ _ _ h (hop ▸ h1)
      rw [hop] at h2
      rw [collectGroups, ← List.append_assoc]
      exact h2
  | alt a b iha ihb =>
    intro op cl op' cl' h hn
    rw [checkRefs] at h
    split at h
    · exact absurd h (by simp)
    · rename_i opm clm hm
      have h1 := iha _ _ _ _ hm hn
      have hop := checkRefs_opened a op cl opm clm hm
      have h2 := ihb _ _ _ _ h (hop ▸ h1)
      rw [hop] at h2
      rw [collectGroups, ← List.append_assoc]
      exact h2
  | star r ih => intro op cl op' cl' h hn; exact ih _ _ _ _ h hn
  | rep r lo hi ih => intro op cl op' cl' h hn; exact ih _ _ _ _ h hn
  | grp n r ih =>
    intro op cl op' cl' h hn
    rw [checkRefs] at h
    split at h
    · exact absurd h (by simp)
    · rename_i hnotin
      split at h
      · exact absurd h (by simp)
      · split at h
        · exact absurd h (by simp)
        · rename_i opm clm hm
          have h1 := ih _ _ _ _ hm
            (by
              rw [List.nodup_append]
              refine ⟨hn, List.nodup_singleton n, ?_⟩
              intro x hx hx'
              simp only [List.mem_singleton] at hx'
              subst hx'
              exact hnotin hx)
          rw [collectGroups]
          simpa using h1
  | bref n =>
    intro op cl op' cl' h hn
    simpa [collectGroups] using hn
  | look neg r ih => intro op cl op' cl' h hn; exact ih _ _ _ _ h hn

/-- Did compilation produce a matcher? -/
def exceptOk : Except String Matcher → Bool
  | .ok _ => true
  | .error _ => false

/-- C7 (confirmed).  Compiling a pattern in which the same symbolic id
is declared twice anywhere — on two word nodes, on two sequence nodes,
or once on each (the namespaces are shared) — fails with a fatal error
rather than producing a matcher: a duplicate word id raises
`Id ... defined twice` during parsing, and any other collision puts two
`id_x` capturing groups into the emitted pattern, which `re.compile`
rejects (`redefinition of group name`). -/
theorem c7_duplicate_ids_fatal (p : Pattern)
    (hdup : ¬ (declaredIds p).Nodup) :
    exceptOk (compileP p) = false := by
  rcases hres : compileP p with e | m
  · rfl
  · exfalso
    rw [compileP] at hres
    split at hres
    · exact absurd hres (by simp)
    · rename_i fr st hparse
      dsimp only at hres
      split at hres
      · exact absurd hres (by simp)
      · rename_i opcl hcheck
        rcases opcl with ⟨op', cl'⟩
        have hnodup := checkRefs_nodup _ [] [] op' cl' hcheck List.nodup_nil
        simp only [List.nil_append, collectGroups, List.append_nil] at hnodup
        have hids := parseP_groups p _ _ _ _ _ hparse
        refine hdup ?_
        rw [← hids]
        refine List.Nodup.filterMap ?_ ?_
        · intro a a' b hb hb'
          exact stripId_inj (by simpa using hb) (by simpa using hb')
        · exact hnodup

/-- A pattern declaring id `a` both on a sequence node and on a word
node (the namespaces are shared). -/
def patDup : Pattern := .seq (some "a") none false [.word (some "a") [] []]

/-- Witness for C7: the concrete colliding pattern fails to compile. -/
theorem c7_duplicate_ids_witness :
    ¬ (declaredIds patDup).Nodup ∧ exceptOk (compileP patDup) = false :=
  ⟨by decide, c7_duplicate_ids_fatal patDup (by decide)⟩

/-! ## C8 — extra syndep properties are dropped silently -/

/-- Observe the diagnostics of a compilation result. -/
def cmpWarnings : Except String Matcher → Option (List String)
  | .ok m => some m.warnings
  | .error _ => none

/-- A word with two positive syntactic-relation properties. -/
def patTwoSyndep : Pattern := .seq none none false
  [.word none [("syndep", [.litp "dobj:x", .litp "nsubj:y"])] []]

/-- The same word with only the first syndep property. -/
def patOneSyndep : Pattern := .seq none none false
  [.word none [("syndep", [.litp "dobj:x"])] []]

/-- C8 counterexample.  Compiling a word pattern that carries two
positive syndep properties succeeds with an **empty** warning list —
no non-fatal warning is emitted for the dropped second property — and
produces exactly the matcher of the single-syndep pattern.  (The source
reads `positive_props["syndep"][0]` and never touches the rest; the
only trace is an `XXX support ... multiple syndeps` comment.) -/
theorem c8_counterexample_silent_drop :
    cmpWarnings (compileP patTwoSyndep) = some [] ∧
    compileP patTwoSyndep = compileP patOneSyndep := ⟨rfl, rfl⟩

/-- C8 (corrected).  Only the first declared syntactic-relation
property of a word is honored; every additional one is dropped
**silently** — the parse of a word whose syndep list is `p :: rest` is
literally the parse with syndep list `[p]`, warnings included —
and compilation proceeds. -/
theorem c8_amended_first_syndep_only_silently (st : PState)
    (strid : Option String) (posP negP : List (String × List WordProp))
    (parent : String) (sc : Bool) (p : WordProp) (rest : List WordProp) :
    parseW st strid (("syndep", p :: rest) :: posP) negP parent sc =
      parseW st strid (("syndep", [p]) :: posP) negP parent sc := rfl
/-! ## A sound over-approximation of the matcher's accepting runs -/

/-- `Sem s endpos re p q c c'` over-approximates the accepting runs of
the backtracking matcher: whenever `reM` succeeds on `re` from
position `p`, some derivation reaches position `q` turning the capture
table `c` into `c'`.  (The repetition and negative look-ahead rules are
deliberately permissive: the relation is only used for soundness.) -/
inductive Sem (s : List Char) (endpos : Nat) :
    Regex → Nat → Nat → Caps → Caps → Prop where
  | eps : ∀ {p c}, Sem s endpos .eps p p c c
  | litS : ∀ {l p c}, litAt s p endpos l = true →
      Sem s endpos (.lit l) p (p + l.length) c c
  | clsS : ∀ {neg cs p c ch}, p < endpos → s.get? p = some ch →
      clsOk neg cs ch = true → Sem s endpos (.cls neg cs) p (p + 1) c c
  | catS : ∀ {a b p q r c c1 c2}, Sem s endpos a p q c c1 →
      Sem s endpos b q r c1 c2 → Sem s endpos (.cat a b) p r c c2
  | altL : ∀ {a b p q c c'}, Sem s endpos a p q c c' →
      Sem s endpos (.alt a b) p q c c'
  | altR : ∀ {a b p q c c'}, Sem s endpos b p q c c' →
      Sem s endpos (.alt a b) p q c c'
  | starNil : ∀ {r p c}, Sem s endpos (.star r) p p c c
  | starCons : ∀ {r p q t c c1 c2}, Sem s endpos r p q c c1 →
      Sem s endpos (.star r) q t c1 c2 → Sem s endpos (.star r) p t c c2
  | repSkip : ∀ {r lo hi p c}, Sem s endpos (.rep r lo hi) p p c c
  | repStar : ∀ {r lo hi p q c c'}, Sem s endpos (.star r) p q c c' →
      Sem s endpos (.rep r lo hi) p q c c'
  | repIter : ∀ {r lo hi lo' hi' p q t c c1 c2}, Sem s endpos r p q c c1 →
      Sem s endpos (.rep r lo' hi') q t c1 c2 →
      Sem s endpos (.rep r lo hi) p t c c2
  | grpS : ∀ {n r p q c c'}, Sem s endpos r p q c c' →
      Sem s endpos (.grp n r) p q c ((n, (p, q)) :: c')
  | brefS : ∀ {n p c a b}, c.lookup n = some (a, b) →
      litAt s p endpos (sliceL s a b) = true →
      Sem s endpos (.bref n) p (p + (b - a)) c c
  | lookPos : ∀ {r p q c c'}, Sem s endpos r p q c c' →
      Sem s endpos (.look false r) p p c c'
  | lookNeg : ∀ {r p c}, Sem s endpos (.look true r) p p c c

/-- Soundness of the backtracking matcher with respect to `Sem`: a
successful search factors through an accepting derivation and the
continuation. -/
theorem reM_sound (s : List Char) (endpos : Nat) :
    ∀ (fuel : Nat) {α : Type} (re : Regex) (p : Nat) (c : Caps)
      (k : Nat → Caps → SRes α) (a : α),
    reM s endpos fuel re p c k = .yes a →
    ∃ q c', Sem s endpos re p q c c' ∧ k q c' = .yes a := by
  intro fuel
  induction fuel with
  | zero => intro α re p c k a h; simp [reM] at h
  | succ n ih =>
    intro α re p c k a h
    cases re with
    | eps => exact ⟨p, c, .eps, h⟩
    | lit l =>
      rw [reM] at h
      split at h
      · exact ⟨p + l.length, c, .litS (by assumption), h⟩
      · exact absurd h (by simp)
    | cls neg cs =>
      rw [reM] at h
      split at h
      · split at h
        · split at h
          · exact ⟨p + 1, c, .clsS (by assumption) (by assumption) (by assumption), h⟩
          · exact absurd h (by simp)
        · exact absurd h (by simp)
      · exact absurd h (by simp)
    | cat a b =>
      rw [reM] at h
      obtain ⟨q, c1, hsa, hk1⟩ := ih a p c _ _ h
      obtain ⟨r, c2, hsb, hk2⟩ := ih b q c1 _ _ hk1
      exact ⟨r, c2, .catS hsa hsb, hk2⟩
    | alt a b =>
      rw [reM] at h
      rcases ha : reM s endpos n a p c k with - | - | x <;>
        rw [ha] at h <;> simp only [SRes.orElse] at h
      · exact absurd h (by simp)
      · obtain ⟨q, c', hs, hk⟩ := ih b p c _ _ h
        exact ⟨q, c', .altR hs, hk⟩
      · obtain ⟨q, c', hs, hk⟩ := ih a p c _ _ (ha.trans h)
        exact ⟨q, c', .altL hs, hk⟩
    | star r =>
      rw [reM] at h
      rcases ha : reM s endpos n r p c (fun p' c' =>
          if p < p' then reM s endpos n (.star r) p' c' k else k p' c') with
        - | - | x <;> rw [ha] at h <;> simp only [SRes.orElse] at h
      · exact absurd h (by simp)
      · exact ⟨p, c, .starNil, h⟩
      · obtain ⟨q, c1, hsr, hk1⟩ := ih r p c _ _ (ha.trans h)
        by_cases hlt : p < q
        · rw [if_pos hlt] at hk1
          obtain ⟨t, c2, hss, hk2⟩ := ih (.star r) q c1 _ _ hk1
          exact ⟨t, c2, .starCons hsr hss, hk2⟩
        · rw [if_neg hlt] at hk1
          exact ⟨q, c1, .starCons hsr .starNil, hk1⟩
    | rep r lo hi =>
      match lo, hi with
      | l + 1, hi2 =>
        rw [reM] at h
        obtain ⟨q, c1, hsr, hk1⟩ := ih r p c _ _ h
        obtain ⟨t, c2, hsrest, hk2⟩ := ih (.rep r l (hi2.map (· - 1))) q c1 _ _ hk1
        exact ⟨t, c2, .repIter hsr hsrest, hk2⟩
      | 0, none =>
        rw [reM] at h
        obtain ⟨q, c', hs, hk⟩ := ih (.star r) p c _ _ h
        exact ⟨q, c', .repStar hs, hk⟩
      | 0, some 0 =>
        rw [reM] at h
        exact ⟨p, c, .repSkip, h⟩
      | 0, some (m + 1) =>
        rw [reM] at h
        rcases ha : reM s endpos n r p c (fun p' c' =>
            if p < p' then reM s endpos n (.rep r 0 (some m)) p' c' k
            else k p' c') with - | - | x <;>
          rw [ha] at h <;> simp only [SRes.orElse] at h
        · exact absurd h (by simp)
        · exact ⟨p, c, .repSkip, h⟩
        · obtain ⟨q, c1, hsr, hk1⟩ := ih r p c _ _ (ha.trans h)
          by_cases hlt : p < q
          · rw [if_pos hlt] at hk1
            obtain ⟨t, c2, hss, hk2⟩ := ih (.rep r 0 (some m)) q c1 _ _ hk1
            exact ⟨t, c2, .repIter hsr hss, hk2⟩
          · rw [if_neg hlt] at hk1
            exact ⟨q, c1, .repIter hsr (@Sem.repSkip s endpos r 0 (some m) q c1), hk1⟩
    | grp nm r =>
      rw [reM] at h
      obtain ⟨q, c', hs, hk⟩ := ih r p c _ _ h
      exact ⟨q, (nm, (p, q)) :: c', .grpS hs, hk⟩
    | bref nm =>
      rw [reM] at h
      split at h
      next o aa bb heq =>
        split at h
        next hla => exact ⟨p + (bb - aa), c, .brefS heq hla, h⟩
        next => exact absurd h (by simp)
      next => exact absurd h (by simp)
    | look neg r =>
      rw [reM] at h
      rcases hin : reM (α := Nat × Caps) s endpos n r p c
          (fun p' c' => .yes (p', c')) with - | - | pc <;> rw [hin] at h
      · exact absurd h (by simp)
      · cases neg with
        | true => exact ⟨p, c, .lookNeg, by simpa using h⟩
        | false => exact absurd h (by simp)
      · obtain ⟨q, c', hs, hk⟩ := ih r p c _ _ hin
        have hpc : pc = (q, c') := by
          have := hk
          simp at this
          exact this.symm
        subst hpc
        cases neg with
        | true => exact absurd h (by simp)
        | false => exact ⟨p, c', .lookPos hs, by simpa using h⟩

/-- Soundness of the top-level anchored match: a successful
`compiled.match` factors through an accepting derivation that starts at
`pos`, ends at the reported match end and produces the reported capture
table from the empty one. -/
theorem reMatchTop_sound {fuel : Nat} {re : Regex} {s : List Char}
    {pos endpos : Nat} {md : MatchData}
    (h : reMatchTop fuel re s pos endpos = .yes md) :
    Sem s endpos re pos md.mend [] md.caps := by
  unfold reMatchTop at h
  split at h
  next p c heq =>
    obtain ⟨q, c', hsem, hk⟩ := reM_sound s endpos fuel re pos [] _ _ heq
    simp only [SRes.yes.injEq] at h hk
    obtain ⟨hq, hc⟩ : q = p ∧ c' = c := by
      constructor <;> [exact congrArg Prod.fst hk; exact congrArg Prod.snd hk]
    subst hq hc
    rw [← h]
    exact hsem
  next => exact absurd h (by simp)
  next => exact absurd h (by simp)

/-- Every element of the `matches_here` list is the extraction of a
successful anchored regex match at the cursor (with some end bound). -/
theorem mem_matchesAtLoop_yes {engineFuel : Nat} {regex : Regex}
    {ws : List Char} {words : List PWord} {positions : List Nat}
    {numidOrder : List String} {ignSubOf : String → List String}
    {anchorEnd : Bool} {currentStart : Nat} {mr : MRes} :
    ∀ {fuel currentEnd : Nat} {mh : List MRes},
    matchesAtLoop engineFuel regex ws words positions numidOrder ignSubOf
      anchorEnd currentStart fuel currentEnd = some mh →
    mr ∈ mh →
    ∃ md currentEnd2,
      reMatchTop engineFuel regex ws (currentStart - 1) currentEnd2 = .yes md ∧
      mr = extractMatch words positions md numidOrder ignSubOf := by
  intro fuel
  induction fuel with
  | zero => intro ce mh h; simp [matchesAtLoop] at h
  | succ n ih =>
    intro ce mh h hm
    rw [matchesAtLoop] at h
    split at h
    · exact absurd h (by simp)
    · simp only [Option.some.injEq] at h
      subst h; simp at hm
    · rename_i md hmd
      split at h
      · simp only [Option.some.injEq] at h
        subst h
        simp at hm
        exact ⟨md, ce, hmd, hm⟩
      · split at h
        · exact absurd h (by simp)
        · rename_i rest hrest
          simp only [Option.some.injEq] at h
          subst h
          rcases (by simpa using hm) with hm | hm
          · exact ⟨md, ce, hmd, hm⟩
          · exact ih hrest hm

/-- Inversion for `eps` derivations. -/
theorem sem_eps_inv {s : List Char} {e p q : Nat} {c c' : Caps}
    (h : Sem s e .eps p q c c') : q = p ∧ c' = c := by
  cases h; exact ⟨rfl, rfl⟩

/-- Inversion for literal derivations. -/
theorem sem_lit_inv {s : List Char} {e p q : Nat} {l : List Char} {c c' : Caps}
    (h : Sem s e (.lit l) p q c c') :
    litAt s p e l = true ∧ q = p + l.length ∧ c' = c := by
  cases h; exact ⟨by assumption, rfl, rfl⟩

/-- Inversion for single-character class derivations. -/
theorem sem_cls_inv {s : List Char} {e p q : Nat} {ng : Bool} {cs : List Char}
    {c c' : Caps} (h : Sem s e (.cls ng cs) p q c c') :
    q = p + 1 ∧ c' = c ∧ ∃ ch, s[p]? = some ch ∧ clsOk ng cs ch = true := by
  cases h
  rename_i ch hcls hlt hget
  exact ⟨rfl, rfl, ch, by rw [← List.get?_eq_getElem?]; exact hget, hcls⟩

/-- Inversion for concatenation derivations. -/
theorem sem_cat_inv {s : List Char} {e p q : Nat} {a b : Regex} {c c' : Caps}
    (h : Sem s e (.cat a b) p q c c') :
    ∃ m c1, Sem s e a p m c c1 ∧ Sem s e b m q c1 c' := by
  cases h; exact ⟨_, _, by assumption, by assumption⟩

/-- Inversion for named-group derivations. -/
theorem sem_grp_inv {s : List Char} {e p q : Nat} {nm : String} {r : Regex}
    {c c' : Caps} (h : Sem s e (.grp nm r) p q c c') :
    ∃ c1, Sem s e r p q c c1 ∧ c' = (nm, (p, q)) :: c1 := by
  cases h; exact ⟨_, by assumption, rfl⟩

/-- Inversion for back-reference derivations. -/
theorem sem_bref_inv {s : List Char} {e p q : Nat} {nm : String} {c c' : Caps}
    (h : Sem s e (.bref nm) p q c c') :
    ∃ a b, c.lookup nm = some (a, b) ∧ litAt s p e (sliceL s a b) = true ∧
      q = p + (b - a) ∧ c' = c := by
  cases h; exact ⟨_, _, by assumption, by assumption, rfl, rfl⟩

/-- Inversion for a starred character class: the capture table is
unchanged and every position passed over holds a class character. -/
theorem sem_star_cls_inv {s : List Char} {e : Nat} {ng : Bool}
    {cs : List Char} :
    ∀ {re : Regex} {p q : Nat} {c c' : Caps}, Sem s e re p q c c' →
    re = .star (.cls ng cs) →
    c' = c ∧ p ≤ q ∧
      ∀ k, p ≤ k → k < q → ∃ ch, s[k]? = some ch ∧ clsOk ng cs ch = true := by
  intro re p q c c' h
  induction h with
  | starNil =>
    exact fun _ => ⟨rfl, le_refl _, fun k hk1 hk2 => absurd (lt_of_le_of_lt hk1 hk2)
      (lt_irrefl _)⟩
  | starCons h1 h2 ih1 ih2 =>
    rename_i r0 pp mm tt c0 cA cB
    intro he
    injection he with hr
    subst hr
    obtain ⟨hq1, hc1, ch, hch, hcls⟩ := sem_cls_inv h1
    obtain ⟨hc2, hle2, hall2⟩ := ih2 rfl
    refine ⟨hc2.trans hc1, by omega, fun k hk1 hk2 => ?_⟩
    rcases Nat.lt_or_ge k mm with hk | hk
    · have hkpp : k = pp := by omega
      subst hkpp
      exact ⟨ch, hch, hcls⟩
    · exact hall2 k (by omega) hk2
  | eps => exact fun he => absurd he (by simp)
  | litS h1 => exact fun he => absurd he (by simp)
  | clsS h1 h2 h3 => exact fun he => absurd he (by simp)
  | catS h1 h2 ih1 ih2 => exact fun he => absurd he (by simp)
  | altL h1 ih1 => exact fun he => absurd he (by simp)
  | altR h1 ih1 => exact fun he => absurd he (by simp)
  | repSkip => exact fun he => absurd he (by simp)
  | repStar h1 ih1 => exact fun he => absurd he (by simp)
  | repIter h1 h2 ih1 ih2 => exact fun he => absurd he (by simp)
  | grpS h1 ih1 => exact fun he => absurd he (by simp)
  | brefS h1 h2 => exact fun he => absurd he (by simp)
  | lookPos h1 ih1 => exact fun he => absurd he (by simp)
  | lookNeg => exact fun he => absurd he (by simp)

/-- A successful literal test pins down each character. -/
theorem litAt_get {s : List Char} {e : Nat} :
    ∀ (l : List Char) (p : Nat), litAt s p e l = true →
    ∀ i, i < l.length → s[p + i]? = some (l.getD i 'a') := by
  intro l
  induction l with
  | nil => intro p h i hi; simp at hi
  | cons cH tl ih =>
    intro p h i hi
    rw [litAt] at h
    split at h
    · split at h
      · rename_i cp hcp
        simp only [Bool.and_eq_true, beq_iff_eq] at h
        obtain ⟨hceq, hrest⟩ := h
        rw [hceq] at hcp
        cases i with
        | zero =>
          have : s[p]? = some cH := by rw [← List.get?_eq_getElem?]; exact hcp
          simpa using this
        | succ n =>
          have := ih (p + 1) hrest n (by simpa using hi)
          have harr : p + 1 + n = p + (n + 1) := by omega
          rw [harr] at this
          simpa using this
      · exact absurd h (by simp)
    · exact absurd h (by simp)

/-- The characters of `str(n)` are decimal digits. -/
theorem natStrAux_digit :
    ∀ (fuel n : Nat) (c : Char), c ∈ natStrAux fuel n →
    48 ≤ c.toNat ∧ c.toNat ≤ 57 := by
  intro fuel
  induction fuel with
  | zero => intro n c h; simp [natStrAux] at h
  | succ f ih =>
    intro n c h
    rw [natStrAux] at h
    split at h
    · simp at h
    · rcases List.mem_append.mp h with h | h
      · exact ih _ _ h
      · simp at h
        subst h
        have h10 : n % 10 < 10 := Nat.mod_lt _ (by omega)
        generalize n % 10 = m at h10 ⊢
        interval_cases m <;> exact (by decide)

/-- The characters of `str(n)` are decimal digits. -/
theorem natStr_digit (n : Nat) (c : Char) (h : c ∈ natStr n) :
    48 ≤ c.toNat ∧ c.toNat ≤ 57 := by
  rw [natStr] at h
  split at h
  · simp at h; subst h; decide
  · exact natStrAux_digit _ _ _ h

/-- `str(n)` contains no separator character. -/
theorem natStr_ne_sep (n : Nat) (c : Char) (h : c ∈ natStr n) :
    c ≠ ASEP ∧ c ≠ WSEP := by
  obtain ⟨h1, _⟩ := natStr_digit n c h
  constructor
  · intro he; rw [he] at h1; exact absurd h1 (by decide)
  · intro he; rw [he] at h1; exact absurd h1 (by decide)

/-- Composing two `drop`s. -/
theorem drop_drop_add {α : Type} (l : List α) (m n : Nat) :
    (l.drop m).drop n = l.drop (m + n) := by
  rw [List.drop_drop]

/-- Dropping one more element after a `drop` that exposed a cons. -/
theorem drop_tail_of_drop_cons {α : Type} {ws : List α} {p : Nat} {c : α}
    {l : List α} (h : ws.drop p = c :: l) : ws.drop (p + 1) = l := by
  have h2 := drop_drop_add ws p 1
  rw [h] at h2
  simpa using h2.symm

/-- The element exposed by a `drop` equal to a cons. -/
theorem get_of_drop_cons {α : Type} {ws : List α} {p : Nat} {c : α}
    {l : List α} (h : ws.drop p = c :: l) : ws[p]? = some c := by
  have h0 := List.getElem?_drop ws p 0
  rw [h] at h0
  simpa using h0.symm

/-- Dropping past an initial segment of an append. -/
theorem drop_append_ge {α : Type} (l1 l2 : List α) (n : Nat)
    (h : l1.length ≤ n) : (l1 ++ l2).drop n = l2.drop (n - l1.length) := by
  have h2 := drop_drop_add (l1 ++ l2) l1.length (n - l1.length)
  rw [List.drop_left] at h2
  rw [show (l1 ++ l2).drop n = (l1 ++ l2).drop (l1.length + (n - l1.length))
    from by congr 1; omega]
  exact h2.symm

/-- A maximal wildcard run bounded on the right by a stop character ends
exactly at the stop character's first occurrence. -/
theorem run_stop {ws : List Char} {p e : Nat} {field rest : List Char}
    {sep : Char}
    (hdrop : ws.drop p = field ++ sep :: rest)
    (hfield : ∀ ch ∈ field, ch ≠ sep)
    (hrun : ∀ k, p ≤ k → k < e → ∃ ch, ws[k]? = some ch ∧ ch ≠ sep)
    (hpe : p ≤ e)
    (hstop : ws[e]? = some sep) :
    e = p + field.length ∧ ws.drop (e + 1) = rest := by
  have hg : ∀ i : Nat, ws[p + i]? = (field ++ sep :: rest)[i]? := by
    intro i
    rw [← List.getElem?_drop, hdrop]
  have he : e = p + field.length := by
    rcases Nat.lt_trichotomy e (p + field.length) with hlt | heq | hgt
    · exfalso
      have hi : e - p < field.length := by omega
      have h1 := hg (e - p)
      rw [show p + (e - p) = e from by omega] at h1
      rw [List.getElem?_append_left hi, List.getElem?_eq_getElem hi] at h1
      rw [hstop] at h1
      have : field[e - p] = sep := by
        have := h1.symm
        simpa using this
      exact hfield _ (List.getElem_mem hi) this
    · exact heq
    · exfalso
      obtain ⟨ch, hch, hne⟩ := hrun (p + field.length) (Nat.le_add_right _ _)
        hgt
      have h1 := hg field.length
      rw [List.getElem?_append_right (le_refl _)] at h1
      simp at h1
      rw [hch] at h1
      exact hne (by simpa using h1)
  refine ⟨he, ?_⟩
  have h2 := drop_drop_add ws p (field.length + 1)
  rw [hdrop, show field ++ sep :: rest = (field ++ [sep]) ++ rest from by simp,
    drop_append_ge _ _ _ (by simp)] at h2
  simp at h2
  rw [he, show p + field.length + 1 = p + (field.length + 1) from by omega,
    ← h2]

/-- A needle that occurs character by character at offset `d` is an
infix. -/
theorem infix_of_get {I R : List Char} {d : Nat}
    (h : ∀ i, i < I.length → R[d + i]? = I[i]?) : I <:+: R := by
  rcases Nat.eq_zero_or_pos I.length with h0 | h0
  · obtain rfl := List.length_eq_zero.mp h0
    exact List.nil_infix
  · have hlast := h (I.length - 1) (by omega)
    obtain ⟨ch, hch⟩ : ∃ ch, I[I.length - 1]? = some ch :=
      ⟨_, List.getElem?_eq_getElem (by omega)⟩
    rw [hch] at hlast
    have hlt : d + (I.length - 1) < R.length := by
      by_contra hc
      rw [List.getElem?_eq_none (by omega)] at hlast
      exact absurd hlast (by simp)
    have hlen : d + I.length ≤ R.length := by omega
    have htake : I = (R.drop d).take I.length := by
      refine List.ext_getElem? (fun n => ?_)
      rcases Nat.lt_or_ge n I.length with hn | hn
      · rw [List.getElem?_take_of_lt hn, List.getElem?_drop, h n hn]
      · rw [List.getElem?_eq_none hn, List.getElem?_eq_none]
        simp
        omega
    rw [htake]
    exact List.infix_iff_prefix_suffix.mpr
      ⟨R.drop d, List.take_prefix _ _, List.drop_suffix _ _⟩

/-- Every offset-table entry is at least the running offset. -/
theorem encodePositions_go_ge :
    ∀ (l : List PWord) (j wn off : Nat), j < l.length →
    off ≤ (encodePositions.go off wn l).getD j 0 := by
  intro l
  induction l with
  | nil => intro j wn off hj; simp at hj
  | cons w tl ih =>
    intro j wn off hj
    cases j with
    | zero => simp [encodePositions.go]
    | succ n =>
      have hn : n < tl.length := by simpa using hj
      have := ih n (wn + 1) (off + (encodeElem wn w).length + 1) hn
      simp only [encodePositions.go, List.getD_cons_succ]
      omega

/-- Alignment of the offset table with the encoded string: from just
before a token's offset, the encoded string reads as a word separator,
the token's encoding and another word separator. -/
theorem enc_go_drop :
    ∀ (l : List PWord) (j wn off : Nat) (hj : j < l.length),
    ∃ tail, (WSEP :: encodeString.go wn l).drop
        ((encodePositions.go off wn l).getD j 0 - off)
      = WSEP :: (encodeElem (wn + j) (l.get ⟨j, hj⟩) ++ WSEP :: tail) := by
  intro l
  induction l with
  | nil => intro j wn off hj; simp at hj
  | cons w tl ih =>
    intro j wn off hj
    cases j with
    | zero =>
      cases tl with
      | nil =>
        exact ⟨[], by simp [encodePositions.go, encodeString.go]⟩
      | cons w2 tl2 =>
        exact ⟨encodeString.go (wn + 1) (w2 :: tl2),
          by simp [encodePositions.go, encodeString.go]⟩
    | succ n =>
      have hn : n < tl.length := by simpa using hj
      obtain ⟨tail, htail⟩ :=
        ih n (wn + 1) (off + (encodeElem wn w).length + 1) hn
      refine ⟨tail, ?_⟩
      have hge := encodePositions_go_ge tl n (wn + 1)
        (off + (encodeElem wn w).length + 1) hn
      cases tl with
      | nil => simp at hn
      | cons w2 tl2 =>
        rw [show encodePositions.go off wn (w :: w2 :: tl2)
            = off :: encodePositions.go (off + (encodeElem wn w).length + 1)
              (wn + 1) (w2 :: tl2) from rfl, List.getD_cons_succ,
          show encodeString.go wn (w :: w2 :: tl2)
            = encodeElem wn w ++ WSEP :: encodeString.go (wn + 1) (w2 :: tl2)
            from rfl,
          show WSEP :: (encodeElem wn w
              ++ WSEP :: encodeString.go (wn + 1) (w2 :: tl2))
            = (WSEP :: encodeElem wn w)
              ++ (WSEP :: encodeString.go (wn + 1) (w2 :: tl2)) from by simp,
          drop_append_ge _ _ _ (by simp only [List.length_cons]; omega),
          show wn + (n + 1) = wn + 1 + n from by omega]
        simp only [List.length_cons]
        rw [show (encodePositions.go (off + (encodeElem wn w).length + 1)
              (wn + 1) (w2 :: tl2)).getD n 0 - off
              - ((encodeElem wn w).length + 1)
            = (encodePositions.go (off + (encodeElem wn w).length + 1)
              (wn + 1) (w2 :: tl2)).getD n 0
              - (off + (encodeElem wn w).length + 1) from by omega]
        exact htail

/-- From just before token `j`'s offset, the encoded sentence reads as
a word separator, token `j`'s encoding (with 1-based word number
`j + 1`) and another word separator. -/
theorem enc_drop (words : List PWord) (j : Nat) (hj : j < words.length) :
    ∃ tail, (encodeString words).drop ((encodePositions words).getD j 0 - 1)
      = WSEP :: (encodeElem (j + 1) (words.get ⟨j, hj⟩) ++ WSEP :: tail) := by
  obtain ⟨tail, htail⟩ := enc_go_drop words j 1 1 hj
  refine ⟨tail, ?_⟩
  rw [show j + 1 = 1 + j from by omega]
  exact htail

/-- Inversion for the attribute wildcard `[^\x1d\x1c]*`: captures are
unchanged and every consumed character is a non-separator. -/
theorem sem_rWild_inv {s : List Char} {e p q : Nat} {c c' : Caps}
    (h : Sem s e rWild p q c c') :
    c' = c ∧ p ≤ q ∧ ∀ k, p ≤ k → k < q →
      ∃ ch, s[k]? = some ch ∧ ch ≠ ASEP ∧ ch ≠ WSEP := by
  obtain ⟨hc, hle, hall⟩ := sem_star_cls_inv h rfl
  refine ⟨hc, hle, fun k h1 h2 => ?_⟩
  obtain ⟨ch, hch, hcls⟩ := hall k h1 h2
  refine ⟨ch, hch, ?_⟩
  rw [clsOk] at hcls
  simp only [if_true] at hcls
  have hnm : ch ∉ [ASEP, WSEP] := by
    intro hmem
    rw [List.contains_eq_any_beq] at hcls
    simp at hcls
    rcases (by simpa using hmem) with h | h <;> exact absurd h (by tauto)
  exact ⟨fun hh => hnm (by simp [hh]), fun hh => hnm (by simp [hh])⟩

/-- The same inversion for an attribute-value fragment with no declared
properties (`attrVal none []`, compiled as wildcard-then-nothing). -/
theorem sem_wildEps_inv {s : List Char} {e p q : Nat} {c c' : Caps}
    (h : Sem s e (.cat rWild .eps) p q c c') :
    c' = c ∧ p ≤ q ∧ ∀ k, p ≤ k → k < q →
      ∃ ch, s[k]? = some ch ∧ ch ≠ ASEP ∧ ch ≠ WSEP := by
  obtain ⟨m, c1, h1, h2⟩ := sem_cat_inv h
  obtain ⟨hq, hc⟩ := sem_eps_inv h2
  subst hq
  obtain ⟨hc1, hle, hall⟩ := sem_rWild_inv h1
  exact ⟨hc.trans hc1, hle, hall⟩

/-- One `field + ATTRIBUTE_SEPARATOR` step of a word fragment: the
captured group spans exactly the field, and matching resumes after the
separator. -/
theorem sem_field_step {ws : List Char} {ce p q : Nat} {c c' : Caps}
    {nm : String} {inner K : Regex} {field rest : List Char}
    (hinv : ∀ p2 q2 c2 c2x, Sem ws ce inner p2 q2 c2 c2x →
      c2x = c2 ∧ p2 ≤ q2 ∧ ∀ k, p2 ≤ k → k < q2 →
        ∃ ch, ws[k]? = some ch ∧ ch ≠ ASEP ∧ ch ≠ WSEP)
    (hdrop : ws.drop p = field ++ ASEP :: rest)
    (hfield : ∀ ch ∈ field, ch ≠ ASEP)
    (hsem : Sem ws ce (.cat (.grp nm inner) (.cat (.lit [ASEP]) K)) p q c c') :
    Sem ws ce K (p + field.length + 1) q
        ((nm, (p, p + field.length)) :: c) c'
      ∧ ws.drop (p + field.length + 1) = rest := by
  obtain ⟨m, c1, hg, hrest⟩ := sem_cat_inv hsem
  obtain ⟨cin, hr, hc1⟩ := sem_grp_inv hg
  obtain ⟨hcin, hle, hrun⟩ := hinv _ _ _ _ hr
  obtain ⟨m2, c2, hlit, hK⟩ := sem_cat_inv hrest
  obtain ⟨hlitAt, hm2, hc2⟩ := sem_lit_inv hlit
  have hsepAt : ws[m]? = some ASEP := by
    have := litAt_get [ASEP] m hlitAt 0 (by simp)
    simpa using this
  have hrun2 : ∀ k, p ≤ k → k < m → ∃ ch, ws[k]? = some ch ∧ ch ≠ ASEP := by
    intro k h1 h2
    obtain ⟨ch, hch, hA, _⟩ := hrun k h1 h2
    exact ⟨ch, hch, hA⟩
  obtain ⟨hm, hdrop2⟩ := run_stop hdrop hfield hrun2 hle hsepAt
  subst hm
  rw [hm2, hc2, hc1, hcin] at hK
  exact ⟨hK, hdrop2⟩

/-- Is a character neither separator? -/
def noSepChar (c : Char) : Bool := !(c == ASEP) && !(c == WSEP)

/-- A well-formed token: none of its four attribute strings contains a
separator character (real corpus tokens satisfy this; the encoder
assumes it). -/
def PWord.sepFree (w : PWord) : Bool :=
  w.surface.data.all noSepChar && w.lemma_.data.all noSepChar
    && w.pos.data.all noSepChar && w.syn.data.all noSepChar

/-- Unpacking `PWord.sepFree`. -/
theorem sepFree_fields {w : PWord} (h : w.sepFree = true) :
    (∀ c ∈ w.surface.data, c ≠ ASEP ∧ c ≠ WSEP) ∧
    (∀ c ∈ w.lemma_.data, c ≠ ASEP ∧ c ≠ WSEP) ∧
    (∀ c ∈ w.pos.data, c ≠ ASEP ∧ c ≠ WSEP) ∧
    (∀ c ∈ w.syn.data, c ≠ ASEP ∧ c ≠ WSEP) := by
  rw [PWord.sepFree] at h
  simp only [Bool.and_eq_true, List.all_eq_true, noSepChar,
    Bool.not_eq_true', beq_eq_false_iff_ne] at h
  exact ⟨h.1.1.1, h.1.1.2, h.1.2, h.2⟩

/-- The `;dobj:<wordnum>;` substring that the self-reference pattern's
syntactic-relation fragment requires inside a token's `syn` field. -/
def selfRefNeedle (wn : Nat) : List Char :=
  (';' :: ("dobj".data ++ [':'])) ++ (natStr wn ++ [';'])

/-- Does token `w`, encoded at 1-based position `wn`, carry the
dependency `dobj` on itself?  (The encoder wraps `syn` as `;syn;`.) -/
def hasSelfRef (w : PWord) (wn : Nat) : Prop :=
  selfRefNeedle wn <:+: (';' :: (w.syn.data ++ [';']))

instance (w : PWord) (wn : Nat) : Decidable (hasSelfRef w wn) := by
  unfold hasSelfRef
  exact inferInstance

/-- The self-reference pattern of the claim: a single word with id `n1`
whose syndep property is `dobj:n1`. -/
def patSelfRef : Pattern := .seq none none false
  [.word (some "n1") [("syndep", [.litp "dobj:n1"])] []]

/-- The syndep back-reference fragment the compiler emits for
`dobj:n1` (the target id is already defined, so it compiles to a named
back-reference on the target's word number). -/
def synRE9 : Regex := .cat rWild (.cat (.lit (';' :: ("dobj".data ++ [':'])))
  (.cat (.bref "wid_n1_wordnum") (.cat (.lit [';']) rWild)))

/-- The word fragment of the compiled self-reference pattern. -/
def word9 : Regex := wordFormat (.grp "wid_n1_wordnum" rWild)
  (.grp "wid_n1_surface" (.cat rWild .eps))
  (.grp "wid_n1_lemma" (.cat rWild .eps))
  (.grp "wid_n1_pos" (.cat rWild .eps)) synRE9

/-- The full compiled regex of the self-reference pattern. -/
def re9 : Regex := .cat (.lit [WSEP]) (.cat (.grp "id_n1" word9) .eps)

/-- The compiled matcher of the self-reference pattern. -/
def mSelfRef : Matcher := ⟨re9,
  ["id_n1", "wid_n1_wordnum", "wid_n1_surface", "wid_n1_lemma", "wid_n1_pos"],
  [], [], []⟩

/-- A degenerate token whose `syn` field happens to read `dobj:1`: once
encoded at position 1 it satisfies the self-reference fragment. -/
def wSelf : PWord := ⟨"eats", "eat", "V", "dobj:1"⟩

/-- Characters of the emitted `;dobj:` literal are not separators. -/
theorem lit6_chars :
    ∀ i, i < (';' :: ("dobj".data ++ [':'])).length →
    (';' :: ("dobj".data ++ [':'])).getD i 'a' ≠ WSEP := by decide

/-- Looking up the word-number capture in the capture table built by
the self-reference word fragment. -/
theorem lookup_wordnum (x1 x2 x3 x4 : Nat × Nat) :
    List.lookup "wid_n1_wordnum"
      [("wid_n1_pos", x1), ("wid_n1_lemma", x2), ("wid_n1_surface", x3),
        ("wid_n1_wordnum", x4)] = some x4 := by rfl

/-- Main inversion: an accepting derivation of the compiled
self-reference regex anchored just before token `j`'s offset forces the
substring `;dobj:<j+1>;` to occur inside token `j`'s wrapped `syn`
field. -/
theorem sem_re9_selfref {words : List PWord} {j ce q : Nat} {cf : Caps}
    (hj : j < words.length)
    (hsf : ∀ w ∈ words, PWord.sepFree w = true)
    (h : Sem (encodeString words) ce re9
      ((encodePositions words).getD j 0 - 1) q [] cf) :
    hasSelfRef (words.get ⟨j, hj⟩) (j + 1) := by
  obtain ⟨tail, hdropTop⟩ := enc_drop words j hj
  obtain ⟨hS, hL, hP, hY⟩ := sepFree_fields (hsf _ (words.get_mem j hj))
  obtain ⟨m0, cA, hlit0, h1⟩ := sem_cat_inv h
  obtain ⟨hlitAt0, hm0, hcA⟩ := sem_lit_inv hlit0
  obtain ⟨m1, cB, hgrp, heps⟩ := sem_cat_inv h1
  obtain ⟨hqeq, hcf⟩ := sem_eps_inv heps
  obtain ⟨cw, hw, hcB⟩ := sem_grp_inv hgrp
  subst hm0 hcA
  have hdrop1 := drop_tail_of_drop_cons hdropTop
  have hdropF1 : (encodeString words).drop
      ((encodePositions words).getD j 0 - 1 + 1)
      = natStr (j + 1) ++ ASEP ::
        ((words.get ⟨j, hj⟩).surface.data ++ ASEP ::
          ((words.get ⟨j, hj⟩).lemma_.data ++ ASEP ::
            ((words.get ⟨j, hj⟩).pos.data ++ ASEP ::
              ((';' :: ((words.get ⟨j, hj⟩).syn.data ++ [';']))
                ++ WSEP :: tail)))) := by
    rw [hdrop1]
    simp [encodeElem]
  obtain ⟨hw2, hdropR1⟩ := sem_field_step
    (fun _ _ _ _ hh => sem_rWild_inv hh) hdropF1
    (fun ch hc => (natStr_ne_sep _ ch hc).1) hw
  obtain ⟨hw3, hdropR2⟩ := sem_field_step
    (fun _ _ _ _ hh => sem_wildEps_inv hh) hdropR1
    (fun ch hc => (hS ch hc).1) hw2
  obtain ⟨hw4, hdropR3⟩ := sem_field_step
    (fun _ _ _ _ hh => sem_wildEps_inv hh) hdropR2
    (fun ch hc => (hL ch hc).1) hw3
  obtain ⟨hw5, hdropR4⟩ := sem_field_step
    (fun _ _ _ _ hh => sem_wildEps_inv hh) hdropR3
    (fun ch hc => (hP ch hc).1) hw4
  obtain ⟨g1, cS, hsyn, hlitW⟩ := sem_cat_inv hw5
  obtain ⟨hlitWAt, hm1e, hcS⟩ := sem_lit_inv hlitW
  obtain ⟨f0, cD, hrun0, hrest6⟩ := sem_cat_inv hsyn
  obtain ⟨hcD, hlef0, hrunA⟩ := sem_rWild_inv hrun0
  subst hcD
  obtain ⟨f1, cE, hlit6, hrest7⟩ := sem_cat_inv hrest6
  obtain ⟨hlit6At, hf1, hcE⟩ := sem_lit_inv hlit6
  subst hcE
  obtain ⟨f2, cF, hbref, hrest8⟩ := sem_cat_inv hrest7
  obtain ⟨a, b, hlook, hbrefAt, hf2, hcF⟩ := sem_bref_inv hbref
  subst hcF
  rw [lookup_wordnum] at hlook
  obtain ⟨ha, hb⟩ : a = (encodePositions words).getD j 0 - 1 + 1 ∧
      b = (encodePositions words).getD j 0 - 1 + 1 + (natStr (j + 1)).length
      := by
    have h2 := hlook.symm
    simp only [Option.some.injEq, Prod.mk.injEq] at h2
    exact ⟨h2.1, h2.2⟩
  subst ha hb
  have hslice : sliceL (encodeString words)
      ((encodePositions words).getD j 0 - 1 + 1)
      ((encodePositions words).getD j 0 - 1 + 1 + (natStr (j + 1)).length)
      = natStr (j + 1) := by
    rw [sliceL, hdropF1, show (encodePositions words).getD j 0 - 1 + 1
        + (natStr (j + 1)).length
        - ((encodePositions words).getD j 0 - 1 + 1)
        = (natStr (j + 1)).length from by omega]
    exact List.take_left _ _
  rw [hslice] at hbrefAt
  obtain ⟨f3, cG, hlitS, hwild2⟩ := sem_cat_inv hrest8
  obtain ⟨hlitSAt, hf3, hcG⟩ := sem_lit_inv hlitS
  subst hcG
  obtain ⟨hcLast, hlef3, hrunB⟩ := sem_rWild_inv hwild2
  have hlen6 : (';' :: ("dobj".data ++ [':'])).length = 6 := rfl
  rw [hlen6] at hf1
  have hsemi : (encodeString words)[f2]? = some ';' := by
    have := litAt_get [';'] f2 hlitSAt 0 (by simp)
    simpa using this
  have hstopW : (encodeString words)[g1]? = some WSEP := by
    have := litAt_get [WSEP] g1 hlitWAt 0 (by simp)
    simpa using this
  rw [List.length_singleton] at hf3
  set T := (encodePositions words).getD j 0 - 1 + 1 + (natStr (j + 1)).length
    + 1 + (words.get ⟨j, hj⟩).surface.data.length + 1
    + (words.get ⟨j, hj⟩).lemma_.data.length + 1
    + (words.get ⟨j, hj⟩).pos.data.length + 1 with hT
  have hfieldR : ∀ ch ∈ (';' :: ((words.get ⟨j, hj⟩).syn.data ++ [';'])),
      ch ≠ WSEP := by
    intro ch hc he
    subst he
    simp only [List.mem_cons, List.mem_append, List.mem_singleton] at hc
    rcases hc with h1 | h1
    · exact absurd h1 (by decide)
    · rcases h1 with h1 | h1
      · exact (hY _ h1).2 rfl
      · exact absurd h1 (by decide)
  have hrunR : ∀ k, T ≤ k → k < g1 →
      ∃ ch, (encodeString words)[k]? = some ch ∧ ch ≠ WSEP := by
    intro k hk1 hk2
    rcases Nat.lt_or_ge k f0 with hx | hx
    · obtain ⟨ch, hch, _, hcW⟩ := hrunA k hk1 hx
      exact ⟨ch, hch, hcW⟩
    · rcases Nat.lt_or_ge k f1 with hy | hy
      · have hi : k - f0 < (';' :: ("dobj".data ++ [':'])).length := by
          rw [hlen6]; omega
        have hg := litAt_get _ f0 hlit6At (k - f0) hi
        rw [show f0 + (k - f0) = k from by omega] at hg
        exact ⟨_, hg, lit6_chars _ hi⟩
      · rcases Nat.lt_or_ge k f2 with hz | hz
        · have hi : k - f1 < (natStr (j + 1)).length := by omega
          have hg := litAt_get _ f1 hbrefAt (k - f1) hi
          rw [show f1 + (k - f1) = k from by omega] at hg
          refine ⟨_, hg, ?_⟩
          have hmem : (natStr (j + 1)).getD (k - f1) 'a' ∈ natStr (j + 1) := by
            rw [List.getD_eq_getElem _ _ hi]
            exact List.getElem_mem hi
          exact (natStr_ne_sep _ _ hmem).2
        · rcases Nat.lt_or_ge k f3 with hv | hv
          · have hkf2 : k = f2 := by omega
            subst hkf2
            exact ⟨';', hsemi, by decide⟩
          · obtain ⟨ch, hch, _, hcW⟩ := hrunB k hv hk2
            exact ⟨ch, hch, hcW⟩
  obtain ⟨hg1eq, _⟩ := run_stop hdropR4 hfieldR hrunR (by omega) hstopW
  simp only [List.length_cons, List.length_append, List.length_singleton]
    at hg1eq
  have hRidx : ∀ m, m < (';' :: ((words.get ⟨j, hj⟩).syn.data ++ [';'])).length
      → (';' :: ((words.get ⟨j, hj⟩).syn.data ++ [';']))[m]?
        = (encodeString words)[T + m]? := by
    intro m hm
    have h0 := List.getElem?_drop (encodeString words) T m
    rw [hdropR4, List.getElem?_append_left hm] at h0
    exact h0
  have hneed : ∀ i, i < (selfRefNeedle (j + 1)).length →
      (';' :: ((words.get ⟨j, hj⟩).syn.data ++ [';']))[(f0 - T) + i]?
        = (selfRefNeedle (j + 1))[i]? := by
    intro i hi
    have hIlen : (selfRefNeedle (j + 1)).length
        = 6 + ((natStr (j + 1)).length + 1) := by
      rw [show selfRefNeedle (j + 1) = (';' :: ("dobj".data ++ [':']))
          ++ (natStr (j + 1) ++ [';']) from rfl,
        List.length_append, List.length_cons, List.length_append,
        List.length_append, List.length_singleton, List.length_singleton,
        show ("dobj".data).length = 4 from rfl]
    rw [hIlen] at hi
    have hin : (f0 - T) + i
        < (';' :: ((words.get ⟨j, hj⟩).syn.data ++ [';'])).length := by
      simp only [List.length_cons, List.length_append, List.length_singleton]
      omega
    rw [hRidx _ hin, show T + ((f0 - T) + i) = f0 + i from by omega]
    rcases Nat.lt_or_ge i 6 with h6 | h6
    · have hi6 : i < (';' :: ("dobj".data ++ [':'])).length := by
        rw [hlen6]; omega
      have hg := litAt_get _ f0 hlit6At i hi6
      rw [hg,
        show selfRefNeedle (j + 1) = (';' :: ("dobj".data ++ [':']))
          ++ (natStr (j + 1) ++ [';']) from rfl,
        List.getElem?_append_left hi6, List.getElem?_eq_getElem hi6,
        List.getD_eq_getElem _ _ hi6]
    · rcases Nat.lt_or_ge i (6 + (natStr (j + 1)).length) with hlt2 | hge2
      · have hi2 : i - 6 < (natStr (j + 1)).length := by omega
        have hg := litAt_get _ f1 hbrefAt (i - 6) hi2
        rw [show f1 + (i - 6) = f0 + i from by omega] at hg
        rw [hg,
          show selfRefNeedle (j + 1) = (';' :: ("dobj".data ++ [':']))
            ++ (natStr (j + 1) ++ [';']) from rfl,
          List.getElem?_append_right (by rw [hlen6]; omega), hlen6,
          List.getElem?_append_left hi2, List.getElem?_eq_getElem hi2,
          List.getD_eq_getElem _ _ hi2]
      · have hieq : i = 6 + (natStr (j + 1)).length := by omega
        subst hieq
        rw [show f0 + (6 + (natStr (j + 1)).length) = f2 from by omega, hsemi,
          show selfRefNeedle (j + 1) = (';' :: ("dobj".data ++ [':']))
            ++ (natStr (j + 1) ++ [';']) from rfl,
          List.getElem?_append_right (by rw [hlen6]; omega), hlen6,
          show 6 + (natStr (j + 1)).length - 6
            = (natStr (j + 1)).length from by omega,
          List.getElem?_append_right (le_refl _)]
        simp
  exact infix_of_get hneed

/-- C9, counterexample to the original claim: the self-reference
pattern `[id=n1, syndep=dobj:n1]` compiles successfully, but it is not
true that it can never match: on the one-token sentence whose `syn`
attribute happens to read `dobj:1`, the encoded back-reference
`;dobj:<wordnum>;` is satisfied by the token itself and the matcher
yields a match.  The self-reference is resolved against the encoded
string, not against the pattern structure. -/
theorem c9_counterexample_self_reference_matches :
    compileP patSelfRef = .ok mSelfRef ∧
    pmMatches mSelfRef [wSelf] "Longest" true ["*"] false false efC 3
      = ⟨[⟨[wSelf], [0]⟩], .done⟩ :=
  ⟨rfl, by decide⟩

/-- C9 (amended): the self-reference pattern `[id=n1, syndep=dobj:n1]`
compiles successfully (no fatal error, back-reference resolution
terminates), and matching it yields no match on every sentence whose
tokens are separator-free and in which no token's `syn` attribute
contains the literal self-reference substring `;dobj:<its own 1-based
position>;` once wrapped as `;syn;` — in particular on every ordinary
dependency-annotated sentence, where a token never lists itself as its
own `dobj` head.  (The original claim's "never matches any sentence" is
refuted by `c9_counterexample_self_reference_matches`.) -/
theorem c9_selfref_compiles_and_matches_only_selfref (words : List PWord)
    (policy : String) (ov : Bool) (ids : List String) (aB aE : Bool)
    (ef sf : Nat)
    (hsf : ∀ w ∈ words, PWord.sepFree w = true)
    (hno : ∀ (k : Nat) (hk : k < words.length),
      ¬ hasSelfRef (words.get ⟨k, hk⟩) (k + 1)) :
    compileP patSelfRef = .ok mSelfRef ∧
    (pmMatches mSelfRef words policy ov ids aB aE ef sf).yields = [] := by
  refine ⟨rfl, ?_⟩
  by_contra hne
  obtain ⟨mr, hmr⟩ := List.exists_mem_of_ne_nil _ hne
  obtain ⟨j, mh, hjlt, hmh, hmem⟩ := mem_scanRun_yields hmr
  obtain ⟨md, ce2, htop, hextr⟩ := mem_matchesAtLoop_yes hmh hmem
  have hsem := reMatchTop_sound htop
  have hjw : j < words.length := by
    rw [encodePositions_length] at hjlt
    exact hjlt
  exact hno j hjw (sem_re9_selfref hjw hsf hsem)

/-- C9 witness: the amended theorem applied to a concrete ordinary
sentence (one separator-free token with `syn = "x"`). -/
theorem c9_selfref_witness :
    (∀ w ∈ wordsA, PWord.sepFree w = true) ∧
    (∀ (k : Nat) (hk : k < wordsA.length),
      ¬ hasSelfRef (wordsA.get ⟨k, hk⟩) (k + 1)) ∧
    (compileP patSelfRef = .ok mSelfRef ∧
      (pmMatches mSelfRef wordsA "Longest" true ["*"] false false efC
        3).yields = []) :=
  ⟨by decide, by decide,
    c9_selfref_compiles_and_matches_only_selfref wordsA "Longest" true
      ["*"] false false efC 3 (by decide) (by decide)⟩
